import Mathlib

/-!
# Scorekeeper (`web.go`): entity store, listings, score append and routing

A shallow embedding of `src/web.go`.  Go strings are byte sequences, the
`data/` directory is an association list from file names to documents, and
every handler is a function from a store and a request to a store and a
response.  The standard-library calls the program makes (`strings.Contains`,
`strings.Replace`, `strings.Split`, `encoding/json`, `regexp`,
`http.ServeMux`) are modelled after their documented behaviour; the
third-party `slug.Make` is a parameter of every definition that calls it.
-/

namespace Scorekeeper

/-! ## Go strings -/

/-- One byte of a Go string. -/
abbrev Byte := Fin 256

/-- A Go `string`: an arbitrary sequence of bytes (not necessarily UTF-8). -/
abbrev GoString := List Byte

/-- The bytes of an ASCII string literal of the source. -/
def lit (s : String) : GoString := s.toList.map fun c => Fin.ofNat c.toNat

/-- Go `strings.Contains(s, substr)`: `substr` occurs somewhere within `s`. -/
def Contains : GoString → GoString → Bool
  | [], substr => substr.isPrefixOf []
  | c :: t, substr => substr.isPrefixOf (c :: t) || Contains t substr

/-- The scan behind `strings.Replace(s, old, new, -1)` for a non-empty `old`:
the first argument counts the bytes of the current occurrence of `old` still
to be skipped.  Occurrences are found left to right and do not overlap. -/
def replaceScan (old new : GoString) : Nat → GoString → GoString
  | _, [] => []
  | k + 1, _ :: t => replaceScan old new k t
  | 0, c :: t =>
    if old.isPrefixOf (c :: t) then new ++ replaceScan old new (old.length - 1) t
    else c :: replaceScan old new 0 t

/-- Go `strings.Replace(s, old, new, -1)`.  The program only calls it with the
non-empty literals `".json"`, `"user-"` and `"game-"` for `old`; an empty
`old` (rune-wise insertion in Go) is outside this model and returns `s`. -/
def Replace (s old new : GoString) : GoString :=
  if old = [] then s else replaceScan old new 0 s

/-- The scan behind `strings.Split(s, sep)` for a non-empty `sep`; the head of
the result is the field being read.  The first argument counts the bytes of
the current separator still to be skipped. -/
def splitScan (sep : GoString) : Nat → GoString → List GoString
  | _, [] => [[]]
  | k + 1, _ :: t => splitScan sep k t
  | 0, c :: t =>
    if sep.isPrefixOf (c :: t) then [] :: splitScan sep (sep.length - 1) t
    else
      match splitScan sep 0 t with
      | f :: fs => (c :: f) :: fs
      | [] => [[c]]

/-- Go `strings.Split(s, sep)`.  The program only splits on `"\n"` and `","`
(and the router model on `"/"`); an empty `sep` (explode into runes in Go) is
outside this model and returns `[s]`. -/
def Split (s sep : GoString) : List GoString :=
  if sep = [] then [s] else splitScan sep 0 s

/-- Go `strings.Join(elems, sep)`. -/
def Join : List GoString → GoString → GoString
  | [], _ => []
  | [e], _ => e
  | e :: e2 :: es, sep => e ++ sep ++ Join (e2 :: es) sep

/-- Bytewise lexicographic order `a <= b` of Go strings, the order in which
`ioutil.ReadDir` sorts file names and `json.Marshal` sorts map keys. -/
def bytesLE : GoString → GoString → Bool
  | [], _ => true
  | _ :: _, [] => false
  | a :: as, b :: bs => a.val < b.val || (a == b && bytesLE as bs)

/-! ## UTF-8, as `encoding/json` sees it -/

/-- A UTF-8 continuation byte, `0x80..0xBF`. -/
def isCont (b : Byte) : Bool := 0x80 ≤ b.val && b.val ≤ 0xBF

/-- The range the second byte of a multi-byte encoding must lie in, by its
first byte (`acceptRanges` of Go's `unicode/utf8`). -/
def acceptSecond (b0 b1 : Byte) : Bool :=
  if b0.val = 0xE0 then 0xA0 ≤ b1.val && b1.val ≤ 0xBF
  else if b0.val = 0xED then 0x80 ≤ b1.val && b1.val ≤ 0x9F
  else if b0.val = 0xF0 then 0x90 ≤ b1.val && b1.val ≤ 0xBF
  else if b0.val = 0xF4 then 0x80 ≤ b1.val && b1.val ≤ 0x8F
  else isCont b1

/-- The width in bytes of the valid UTF-8 encoding at the head of `s`, or `0`
when there is none: when `s` is empty or `utf8.DecodeRuneInString` answers
`(RuneError, 1)`. -/
def runeWidth : GoString → Nat
  | [] => 0
  | b0 :: rest =>
    if b0.val < 0x80 then 1
    else if b0.val < 0xC2 then 0
    else if b0.val < 0xE0 then
      match rest with
      | b1 :: _ => if isCont b1 then 2 else 0
      | [] => 0
    else if b0.val < 0xF0 then
      match rest with
      | b1 :: b2 :: _ => if acceptSecond b0 b1 && isCont b2 then 3 else 0
      | _ => 0
    else if b0.val < 0xF5 then
      match rest with
      | b1 :: b2 :: b3 :: _ => if acceptSecond b0 b1 && isCont b2 && isCont b3 then 4 else 0
      | _ => 0
    else 0

/-- The UTF-8 encoding of U+FFFD, the Unicode replacement character. -/
def replacementChar : GoString := [0xEF, 0xBF, 0xBD]

/-- The loop of `json.Marshal` over a string: a valid encoding is copied, a
byte that starts none is written as U+FFFD.  The first argument counts the
remaining bytes of the encoding being copied. -/
def coerceScan : Nat → GoString → GoString
  | _, [] => []
  | k + 1, b :: t => b :: coerceScan k t
  | 0, b :: t =>
    match runeWidth (b :: t) with
    | 0 => replacementChar ++ coerceScan 0 t
    | w + 1 => b :: coerceScan w t

/-- What a string becomes when `json.Marshal` writes it and `json.Unmarshal`
reads it back: "String values encode as JSON strings coerced to valid UTF-8,
replacing invalid bytes with the Unicode replacement rune". -/
def toValidUTF8 (s : GoString) : GoString := coerceScan 0 s

/-- The loop of Go `utf8.ValidString`. -/
def validScan : Nat → GoString → Bool
  | _, [] => true
  | k + 1, _ :: t => validScan k t
  | 0, b :: t =>
    match runeWidth (b :: t) with
    | 0 => false
    | w + 1 => validScan w t

/-- Go `utf8.ValidString(s)`. -/
def validUTF8 (s : GoString) : Bool := validScan 0 s

/-! ## Go maps and pages -/

/-- A Go `map[string]string`: `none` is the nil map; otherwise an association
list in which the first entry for a key is the live one. -/
abbrev GoMap := Option (List (GoString × GoString))

/-- Reading `m[k]`: the zero value `""` when `k` is absent or `m` is nil. -/
def GoMap.get (m : GoMap) (k : GoString) : GoString :=
  match m with
  | none => []
  | some es => (es.lookup k).getD []

/-- The entry of `m` for `k`, if any (`v, ok := m[k]`). -/
def GoMap.find (m : GoMap) (k : GoString) : Option GoString :=
  match m with
  | none => none
  | some es => es.lookup k

/-- Assigning `m[k] = v`; `none` is the run-time panic "assignment to entry
in nil map". -/
def GoMap.set (m : GoMap) (k v : GoString) : Option GoMap :=
  match m with
  | none => none
  | some es => some (some ((k, v) :: es))

/-- The `Page` struct of the source (`template.HTML` is a string type). -/
structure Page where
  Title : GoString
  DisplayTitle : GoString
  Metadata : GoMap
  HTMLMetadata : GoMap
  deriving DecidableEq, Repr

/-- The zero value `Page{}`. -/
def Page.zero : Page := ⟨[], [], none, none⟩

/-! ## JSON documents and `encoding/json` -/

/-- A JSON value.  File contents are modelled at this level: the text syntax
(quoting, escapes, white space) is abstracted away. -/
inductive JSON where
  | null
  | bool (b : Bool)
  | number (text : GoString)
  | string (s : GoString)
  | array (items : List JSON)
  | object (members : List (GoString × JSON))

/-- The bytes of a file: text that is not JSON at all, or a JSON value. -/
inductive Doc where
  | malformed
  | json (v : JSON)

/-- The entries of an association list that are live, each key once. -/
def liveEntries : List (GoString × GoString) → List (GoString × GoString)
  | [] => []
  | (k, v) :: es => (k, v) :: (liveEntries es).filter fun e => e.1 != k

/-- How `json.Marshal` writes a `map[string]string`: `null` for the nil map,
otherwise an object with the keys sorted, keys and values coerced to UTF-8. -/
def marshalMap (m : GoMap) : JSON :=
  match m with
  | none => .null
  | some es =>
    .object (((liveEntries es).insertionSort fun a b => bytesLE a.1 b.1).map fun e =>
      (toValidUTF8 e.1, JSON.string (toValidUTF8 e.2)))

/-- Go `json.Marshal(p)` for `p : *Page`: the struct has no field tags, so
all four exported fields are written, in declaration order. -/
def jsonMarshal (p : Page) : Doc :=
  .json (.object
    [(lit "Title", .string (toValidUTF8 p.Title)),
     (lit "DisplayTitle", .string (toValidUTF8 p.DisplayTitle)),
     (lit "Metadata", marshalMap p.Metadata),
     (lit "HTMLMetadata", marshalMap p.HTMLMetadata)])

/-- The fields of `Page`. -/
inductive Field where
  | Title | DisplayTitle | Metadata | HTMLMetadata
  deriving DecidableEq, Repr

/-- The field names, in declaration order. -/
def fieldNames : List (GoString × Field) :=
  [(lit "Title", .Title), (lit "DisplayTitle", .DisplayTitle),
   (lit "Metadata", .Metadata), (lit "HTMLMetadata", .HTMLMetadata)]

/-- Case-insensitive comparison of an ASCII-letter field name with an object
key, as `encoding/json` folds names: a letter matches its other case, `s`
also U+017F (bytes C5 BF) and `k` also U+212A (bytes E2 84 AA). -/
def foldEq : GoString → GoString → Bool
  | [], key => key.isEmpty
  | c :: name, key =>
    match key with
    | [] => false
    | b :: rest =>
      if b.val < 0x80 then
        (b.val % 32 == c.val % 32 && 0x40 ≤ b.val) && foldEq name rest
      else if c.val % 32 == 19 then
        match key with
        | 0xC5 :: 0xBF :: rest2 => foldEq name rest2
        | _ => false
      else if c.val % 32 == 11 then
        match key with
        | 0xE2 :: 0x84 :: 0xAA :: rest3 => foldEq name rest3
        | _ => false
      else false

/-- The field an object key is decoded into: an exact name match, else the
first field whose name matches case-insensitively; `none` for other keys,
which are ignored. -/
def findField (key : GoString) : Option Field :=
  match fieldNames.lookup key with
  | some f => some f
  | none => (fieldNames.find? fun nf => foldEq nf.1 key).map Prod.snd

/-- Decoding a JSON value into a string field; `false` reports an
`UnmarshalTypeError`.  JSON `null` leaves a string untouched. -/
def unmarshalString (cur : GoString) : JSON → GoString × Bool
  | .string s => (s, true)
  | .null => (cur, true)
  | _ => (cur, false)

/-- Decoding one member of a JSON object into a `map[string]string`: the
element is set even when its value is not a string (to the zero value). -/
def unmarshalMapMember (m : List (GoString × GoString) × Bool) (kv : GoString × JSON) :
    List (GoString × GoString) × Bool :=
  match kv.2 with
  | .string s => ((kv.1, s) :: m.1, m.2)
  | .null => ((kv.1, []) :: m.1, m.2)
  | _ => ((kv.1, []) :: m.1, false)

/-- Decoding a JSON value into a map field: `null` sets the nil map, an
object is decoded member by member into the existing map (a nil map is
allocated first); `false` reports an `UnmarshalTypeError`. -/
def unmarshalMap (cur : GoMap) : JSON → GoMap × Bool
  | .null => (none, true)
  | .object ms =>
    let r := ms.foldl unmarshalMapMember (cur.getD [], true)
    (some r.1, r.2)
  | _ => (cur, false)

/-- Decoding one member of the top-level object into the page. -/
def unmarshalMember (st : Page × Bool) (kv : GoString × JSON) : Page × Bool :=
  let p := st.1
  match findField kv.1 with
  | none => st
  | some .Title =>
    let r := unmarshalString p.Title kv.2
    ({ p with Title := r.1 }, st.2 && r.2)
  | some .DisplayTitle =>
    let r := unmarshalString p.DisplayTitle kv.2
    ({ p with DisplayTitle := r.1 }, st.2 && r.2)
  | some .Metadata =>
    let r := unmarshalMap p.Metadata kv.2
    ({ p with Metadata := r.1 }, st.2 && r.2)
  | some .HTMLMetadata =>
    let r := unmarshalMap p.HTMLMetadata kv.2
    ({ p with HTMLMetadata := r.1 }, st.2 && r.2)

/-- A Go `error` value of the load and save paths. -/
inductive GoError where
  | io
  | jsonSyntax
  | jsonType
  deriving DecidableEq, Repr

/-- Go `json.Unmarshal(encoded, &p)` with `p := &Page{}`: the pointer `p`
afterwards (`none` is nil: JSON `null` sets the pointer to nil) and the
returned error.  Text that is not JSON leaves `p` untouched; a value of the
wrong type is reported after the rest has been decoded. -/
def jsonUnmarshal : Doc → Option Page × Option GoError
  | .malformed => (some Page.zero, some .jsonSyntax)
  | .json .null => (none, none)
  | .json (.object ms) =>
    let r := ms.foldl unmarshalMember (Page.zero, true)
    (some r.1, if r.2 then none else some .jsonType)
  | .json _ => (some Page.zero, some .jsonType)

/-! ## The `data/` directory -/

/-- The entries of `data/` in the order `ioutil.ReadDir` returns them, each
with its contents; `none` is an entry that cannot be opened as a file (a
subdirectory, a file without permission). -/
abbrev Dir := List (GoString × Option Doc)

/-- The state of the file store: `none` when `data/` itself cannot be
opened. -/
abbrev Store := Option Dir

/-- The entry name a path `data/<name>` stands for, when `name` has no
further `/` (the store is one flat directory). -/
def dataName (path : GoString) : Option GoString :=
  if (lit "data/").isPrefixOf path then
    if (path.drop 5).contains 47 then none else some (path.drop 5)
  else none

/-- Go `ioutil.ReadFile(filename)`. -/
def ReadFile (σ : Store) (filename : GoString) : Except GoError Doc :=
  match σ, dataName filename with
  | some d, some n =>
    match d.lookup n with
    | some (some doc) => .ok doc
    | _ => .error .io
  | _, _ => .error .io

/-- The directory after `name` has been created or overwritten with `doc`;
a new entry takes its place in file-name order. -/
def dirPut (name : GoString) (doc : Doc) : Dir → Dir
  | [] => [(name, some doc)]
  | (m, f) :: rest =>
    if m = name then (name, some doc) :: rest
    else if bytesLE name m then (name, some doc) :: (m, f) :: rest
    else (m, f) :: dirPut name doc rest

/-- Go `ioutil.WriteFile(filename, encoded, 0600)`: the store afterwards, or
the error. -/
def WriteFile (σ : Store) (filename : GoString) (doc : Doc) : Except GoError Store :=
  match σ, dataName filename with
  | some d, some n =>
    match d.lookup n with
    | some none => .error .io
    | _ => .ok (some (dirPut n doc d))
  | _, _ => .error .io

/-- Go `ioutil.ReadDir("data/")`: the entry names, sorted by file name. -/
def ReadDir (σ : Store) : Except GoError (List GoString) :=
  match σ with
  | some d => .ok (d.map Prod.fst)
  | none => .error .io

/-! ## Loading and saving entities -/

section Entities

variable (slugMake : GoString → GoString)

/-- The source's `loadGameData(title)`: the returned pointer (`none` is nil)
and error. -/
def loadGameData (σ : Store) (title : GoString) : Option Page × Option GoError :=
  let filename := lit "data/game-" ++ slugMake title ++ lit ".json"
  match ReadFile σ filename with
  | .error err => (none, some err)
  | .ok encoded => jsonUnmarshal encoded

/-- The source's `(p *Page) saveGameData()`. -/
def saveGameData (σ : Store) (p : Page) : Except GoError Store :=
  let filename := lit "data/game-" ++ slugMake p.Title ++ lit ".json"
  let encoded := jsonMarshal p
  WriteFile σ filename encoded

/-- The source's `loadUserData(title)`. -/
def loadUserData (σ : Store) (title : GoString) : Option Page × Option GoError :=
  let filename := lit "data/user-" ++ slugMake title ++ lit ".json"
  match ReadFile σ filename with
  | .error err => (none, some err)
  | .ok encoded => jsonUnmarshal encoded

/-- The source's `(p *Page) saveUserData()`. -/
def saveUserData (σ : Store) (p : Page) : Except GoError Store :=
  let filename := lit "data/user-" ++ slugMake p.Title ++ lit ".json"
  let encoded := jsonMarshal p
  WriteFile σ filename encoded

/-! ## Requests, responses and listings -/

/-- An HTTP request, as far as the handlers read it. -/
structure Request where
  path : GoString
  form : List (GoString × GoString)

/-- Go `r.FormValue(key)`: the first value for `key`, `""` when absent. -/
def Request.FormValue (r : Request) (key : GoString) : GoString :=
  (r.form.lookup key).getD []

/-- What a handler does to the response writer. -/
inductive Response where
  /-- The call `http.NotFound(w, r)`. -/
  | notFound
  /-- The call `http.Error(w, err.Error(), http.StatusInternalServerError)`. -/
  | serverError
  /-- The call `http.Redirect(w, r, target, http.StatusFound)`. -/
  | found (target : GoString)
  /-- The mux's own `301 Moved Permanently`. -/
  | moved (target : GoString)
  /-- The call `templates.ExecuteTemplate(w, name, p)`; `p` may be the nil
  pointer. -/
  | rendered (name : GoString) (p : Option Page)
  /-- A run-time panic in the handler (nil dereference, index out of range,
  assignment to an entry of a nil map); `net/http` recovers it and aborts the
  request without a response. -/
  | aborted
  /-- The call `log.Fatal(err)`: the process exits. -/
  | fatal
  deriving DecidableEq, Repr

/-- The outcome of a function that may panic or call `log.Fatal`. -/
inductive Run (α : Type) where
  | done (a : α)
  | aborted
  | fatal
  deriving DecidableEq, Repr

/-- One `<option>` of `getUserOption`. -/
def userOption (name displayTitle : GoString) : GoString :=
  lit "<option value=\"" ++ name ++ lit "\">" ++ displayTitle ++ lit "</option>"

/-- The loop of `getUserOption` over the directory entries. -/
def getUserOptionLoop (σ : Store) : List GoString → GoString → Run GoString
  | [], users => .done users
  | f :: files, users =>
    if Contains f (lit "user-") then
      let name := Replace (Replace f (lit ".json") (lit "")) (lit "user-") (lit "")
      match (loadUserData slugMake σ name).1 with
      | none => .aborted
      | some p => getUserOptionLoop σ files (users ++ userOption name p.DisplayTitle)
    else getUserOptionLoop σ files users

/-- The source's `getUserOption()`. -/
def getUserOption (σ : Store) : Run GoString :=
  match ReadDir σ with
  | .error _ => .fatal
  | .ok files => getUserOptionLoop slugMake σ files (lit "")

/-- One `<li>` of `getGameList`. -/
def gameItem (name displayTitle : GoString) : GoString :=
  lit "<li><a href=\"/view-game/" ++ name ++ lit "\">" ++ displayTitle ++ lit "</a></li>"

/-- The loop of `getGameList` over the directory entries. -/
def getGameListLoop (σ : Store) : List GoString → GoString → Run GoString
  | [], games => .done games
  | f :: files, games =>
    if Contains f (lit "game-") then
      let name := Replace (Replace f (lit ".json") (lit "")) (lit "game-") (lit "")
      match (loadGameData slugMake σ name).1 with
      | none => .aborted
      | some p => getGameListLoop σ files (games ++ gameItem name p.DisplayTitle)
    else getGameListLoop σ files games

/-- The source's `getGameList()`. -/
def getGameList (σ : Store) : Run GoString :=
  match ReadDir σ with
  | .error _ => .fatal
  | .ok files => getGameListLoop slugMake σ files (lit "")

/-- One `<li>` of `getUserList`. -/
def userItem (name displayTitle : GoString) : GoString :=
  lit "<li><a href=\"/view-user/" ++ name ++ lit "\">" ++ displayTitle ++ lit "</a></li>"

/-- The loop of `getUserList` over the directory entries. -/
def getUserListLoop (σ : Store) : List GoString → GoString → Run GoString
  | [], users => .done users
  | f :: files, users =>
    if Contains f (lit "user-") then
      let name := Replace (Replace f (lit ".json") (lit "")) (lit "user-") (lit "")
      match (loadUserData slugMake σ name).1 with
      | none => .aborted
      | some p => getUserListLoop σ files (users ++ userItem name p.DisplayTitle)
    else getUserListLoop σ files users

/-- The source's `getUserList()`. -/
def getUserList (σ : Store) : Run GoString :=
  match ReadDir σ with
  | .error _ => .fatal
  | .ok files => getUserListLoop slugMake σ files (lit "")

/-! ## Handlers -/

/-- The source's `renderTemplate`: the template `template + ".html"` of the
parsed set is executed on the page (what the execution writes is the
templating engine's affair). -/
def renderTemplate (template : GoString) (p : Option Page) : Response :=
  .rendered (template ++ lit ".html") p

/-- A handler wrapped by `makeHandler`: the store afterwards and the
response, from the store, the request and the title taken from the path. -/
abbrev TitleHandler := Store → Request → GoString → Store × Response

/-- The source's `createGameHandler`. -/
def createGameHandler : TitleHandler := fun σ _ title =>
  match loadGameData slugMake σ title with
  | (_, some _) => (σ, renderTemplate (lit "create-game") (some Page.zero))
  | (p, none) => (σ, renderTemplate (lit "create-game") p)

/-- The source's `saveGameHandler`. -/
def saveGameHandler : TitleHandler := fun σ r _ =>
  let displayTitle := r.FormValue (lit "title")
  let slugTitle := slugMake displayTitle
  let meta : GoMap := some [(lit "description", r.FormValue (lit "description"))]
  let p : Page := ⟨slugTitle, displayTitle, meta, none⟩
  match saveGameData slugMake σ p with
  | .error _ => (σ, .serverError)
  | .ok σ2 => (σ2, .found (lit "/view-game/" ++ slugTitle))

/-- One row of the score table; `none` is the index-out-of-range panic of
`scoreData[0..3]`. -/
def scoreRow (s : GoString) : Option GoString :=
  let scoreData := Split s (lit ",")
  match scoreData[0]?, scoreData[1]?, scoreData[2]?, scoreData[3]? with
  | some d0, some d1, some d2, some d3 =>
    some (lit "<tr><td>" ++ d0 ++ lit "</td><td>" ++ d1 ++ lit "</td><td>" ++ d2 ++
      lit "</td><td>" ++ d3 ++ lit "</td></tr>")
  | _, _, _, _ => none

/-- The loop of `viewGameHandler` over the lines of the scores text. -/
def scoreRows : List GoString → GoString → Option GoString
  | [], scoresString => some scoresString
  | s :: scores, scoresString =>
    if s ≠ lit "" then
      match scoreRow s with
      | none => none
      | some row => scoreRows scores (scoresString ++ row)
    else scoreRows scores scoresString

/-- The "format scores" block of `viewGameHandler`. -/
def formatScores (p : Page) : Option GoString :=
  let scoresString := lit "<table style=\"border: 1px solid black;\">"
  let body :=
    if p.Metadata.get (lit "scores") ≠ lit "" then
      scoreRows (Split (p.Metadata.get (lit "scores")) (lit "\n")) scoresString
    else some scoresString
  body.map fun t => t ++ lit "</table>"

/-- The source's `viewGameHandler`. -/
def viewGameHandler : TitleHandler := fun σ _ title =>
  match loadGameData slugMake σ title with
  | (_, some _) => (σ, .notFound)
  | (none, none) => (σ, .aborted)
  | (some p, none) =>
    match formatScores p with
    | none => (σ, .aborted)
    | some scoresString =>
      let htmlMetadata : GoMap := some [(lit "scores", scoresString)]
      (σ, renderTemplate (lit "view-game") (some { p with HTMLMetadata := htmlMetadata }))

/-- The source's `addScoreHandler`. -/
def addScoreHandler : TitleHandler := fun σ _ title =>
  match loadGameData slugMake σ title with
  | (_, some _) => (σ, .notFound)
  | (p, none) =>
    match getUserOption slugMake σ with
    | .fatal => (σ, .fatal)
    | .aborted => (σ, .aborted)
    | .done users =>
      let htmlMetadata : GoMap := some [(lit "users", users)]
      match p with
      | none => (σ, .aborted)
      | some p => (σ, renderTemplate (lit "add-score") (some { p with HTMLMetadata := htmlMetadata }))

/-- The record `saveScoreHandler` appends to the scores text. -/
def scoreRecord (r : Request) : GoString :=
  r.FormValue (lit "player-one") ++ lit "," ++ r.FormValue (lit "score-one") ++ lit "," ++
    r.FormValue (lit "player-two") ++ lit "," ++ r.FormValue (lit "score-two") ++ lit "\n"

/-- The source's `saveScoreHandler`. -/
def saveScoreHandler : TitleHandler := fun σ r title =>
  match loadGameData slugMake σ title with
  | (_, some _) => (σ, .notFound)
  | (none, none) => (σ, .aborted)
  | (some p, none) =>
    match p.Metadata.set (lit "scores") (p.Metadata.get (lit "scores") ++ scoreRecord r) with
    | none => (σ, .aborted)
    | some meta =>
      let p2 : Page := { p with Metadata := meta }
      match saveGameData slugMake σ p2 with
      | .error _ => (σ, .serverError)
      | .ok σ2 => (σ2, .found (lit "/view-game/" ++ p2.Title))

/-- The source's `createUserHandler`. -/
def createUserHandler : TitleHandler := fun σ _ title =>
  match loadUserData slugMake σ title with
  | (_, some _) => (σ, renderTemplate (lit "create-user") (some Page.zero))
  | (p, none) => (σ, renderTemplate (lit "create-user") p)

/-- The source's `saveUserHandler`. -/
def saveUserHandler : TitleHandler := fun σ r _ =>
  let displayTitle := r.FormValue (lit "title")
  let slugTitle := slugMake displayTitle
  let meta : GoMap := some [(lit "description", r.FormValue (lit "description"))]
  let p : Page := ⟨slugTitle, displayTitle, meta, none⟩
  match saveUserData slugMake σ p with
  | .error _ => (σ, .serverError)
  | .ok σ2 => (σ2, .found (lit "/view-user/" ++ slugTitle))

/-- The source's `viewUserHandler`. -/
def viewUserHandler : TitleHandler := fun σ _ title =>
  match loadUserData slugMake σ title with
  | (_, some _) => (σ, .notFound)
  | (p, none) => (σ, renderTemplate (lit "view-user") p)

/-- The source's `loadReport()`; its error is always nil. -/
def loadReport (σ : Store) : Run Page :=
  match getGameList slugMake σ with
  | .fatal => .fatal
  | .aborted => .aborted
  | .done games =>
    match getUserList slugMake σ with
    | .fatal => .fatal
    | .aborted => .aborted
    | .done users =>
      .done ⟨lit "report", lit "", none, some [(lit "users", users), (lit "games", games)]⟩

/-- The source's `reportHandler`. -/
def reportHandler (σ : Store) (_ : Request) : Store × Response :=
  match loadReport slugMake σ with
  | .fatal => (σ, .fatal)
  | .aborted => (σ, .aborted)
  | .done p => (σ, renderTemplate (lit "report") (some p))

/-! ## Path matching (`regexp`) -/

/-- The regular expressions the source needs. -/
inductive Regex where
  /-- A literal string. -/
  | str (s : GoString)
  /-- A character class. -/
  | cls (p : Byte → Bool)
  /-- Concatenation. -/
  | seq (a b : Regex)
  /-- Alternation `a|b`, the left alternative preferred. -/
  | alt (a b : Regex)
  /-- The greedy `a?`. -/
  | opt (a : Regex)
  /-- The greedy `a+`. -/
  | plus (a : Regex)
  /-- The capturing group number `i`. -/
  | group (i : Nat) (a : Regex)
  /-- The anchor `^` (beginning of text). -/
  | bol
  /-- The anchor `$` (end of text; no flag `m`). -/
  | eol

/-- The captures so far: group number and captured text, newest first. -/
abbrev Caps := List (Nat × GoString)

/-- The continuation of a match: the rest of the input and the captures. -/
abbrev Cont := GoString → Caps → Option Caps

/-- The greedy loop of `a+`: `step` matches one `a`; after each iteration a
further one is tried first, then the continuation.  An iteration that
consumes nothing is not repeated. -/
def plusLoop (step : GoString → Caps → Cont → Option Caps) :
    Nat → GoString → Caps → Cont → Option Caps
  | 0, rest, c, k => step rest c k
  | n + 1, rest, c, k =>
    step rest c fun r c2 =>
      (if r.length < rest.length then plusLoop step n r c2 k else none) <|> k r c2

/-- A backtracking matcher with Go's leftmost-first preference: `run input
re rest c k` matches `re` at the suffix `rest` of `input` and hands what is
left to `k`. -/
def Regex.run (input : GoString) : Regex → GoString → Caps → Cont → Option Caps
  | .str s, rest, c, k => if s.isPrefixOf rest then k (rest.drop s.length) c else none
  | .cls p, rest, c, k =>
    match rest with
    | b :: t => if p b then k t c else none
    | [] => none
  | .seq a b, rest, c, k => run input a rest c fun r c2 => run input b r c2 k
  | .alt a b, rest, c, k => run input a rest c k <|> run input b rest c k
  | .opt a, rest, c, k => run input a rest c k <|> k rest c
  | .plus a, rest, c, k => plusLoop (run input a) rest.length rest c k
  | .group i a, rest, c, k =>
    run input a rest c fun r c2 => k r ((i, rest.take (rest.length - r.length)) :: c2)
  | .bol, rest, c, k => if rest.length = input.length then k rest c else none
  | .eol, rest, c, k => if rest = [] then k rest c else none

/-- The number of capturing groups of a regular expression. -/
def Regex.numSubexp : Regex → Nat
  | .seq a b | .alt a b => a.numSubexp + b.numSubexp
  | .opt a | .plus a => a.numSubexp
  | .group _ a => a.numSubexp + 1
  | _ => 0

/-- The leftmost match of `re` in `input`, tried at each suffix `rest` of
`input` in turn; group `0` is the whole match. -/
def Regex.findAt (re : Regex) (input : GoString) : GoString → Option Caps
  | [] => re.run input [] [] fun r c => some ((0, ([] : GoString).take (0 - r.length)) :: c)
  | b :: t =>
    (re.run input (b :: t) [] fun r c =>
      some ((0, (b :: t).take ((b :: t).length - r.length)) :: c)) <|> re.findAt input t

/-- Go `re.FindStringSubmatch(s)`: `none` is the nil slice; otherwise the
texts of the whole match and of each group (`""` for a group that did not
take part). -/
def Regex.FindStringSubmatch (re : Regex) (s : GoString) : Option (List GoString) :=
  (re.findAt s s).map fun c =>
    (List.range (re.numSubexp + 1)).map fun i => (c.lookup i).getD []

/-- The class `[a-zA-Z0-9-]`. -/
def slugByte (b : Byte) : Bool :=
  (97 ≤ b.val && b.val ≤ 122) || (65 ≤ b.val && b.val ≤ 90) ||
    (48 ≤ b.val && b.val ≤ 57) || b.val = 45

/-- The ten verbs of `validPath`, in the order of the alternation. -/
def verbs : List GoString :=
  [lit "create-game", lit "edit-game", lit "view-game", lit "save-game", lit "add-score",
   lit "save-score", lit "create-user", lit "edit-user", lit "view-user", lit "save-user"]

/-- The source's `validPath`:
`^/(create-game|edit-game|view-game|save-game|add-score|save-score|create-user|edit-user|view-user|save-user)/?([a-zA-Z0-9-]+)?$`. -/
def validPath : Regex :=
  .seq .bol <| .seq (.str (lit "/")) <|
  .seq (.group 1 (
    .alt (.str (lit "create-game")) <| .alt (.str (lit "edit-game")) <|
    .alt (.str (lit "view-game")) <| .alt (.str (lit "save-game")) <|
    .alt (.str (lit "add-score")) <| .alt (.str (lit "save-score")) <|
    .alt (.str (lit "create-user")) <| .alt (.str (lit "edit-user")) <|
    .alt (.str (lit "view-user")) (.str (lit "save-user")))) <|
  .seq (.opt (.str (lit "/"))) <|
  .seq (.opt (.group 2 (.plus (.cls slugByte)))) .eol

/-- The source's `makeHandler(fn)`. -/
def makeHandler (fn : TitleHandler) (σ : Store) (r : Request) : Store × Response :=
  match validPath.FindStringSubmatch r.path with
  | none => (σ, .notFound)
  | some m =>
    match m[2]? with
    | some title => fn σ r title
    | none => (σ, .aborted)

/-! ## The route table (`main` and `http.ServeMux`) -/

/-- The stack discipline of Go `path.Clean` on the elements of a rooted path:
empty elements and `.` are dropped, `..` removes the element before it. -/
def cleanElems : List GoString → List GoString → List GoString
  | [], out => out.reverse
  | e :: es, out =>
    if e = lit "" ∨ e = lit "." then cleanElems es out
    else if e = lit ".." then cleanElems es out.tail
    else cleanElems es (e :: out)

/-- The `cleanPath` of `net/http`: the canonical form of a request path, with
the trailing slash kept. -/
def cleanPath (p : GoString) : GoString :=
  let rooted := if p.head? = some 47 then p else 47 :: p
  let np := 47 :: Join (cleanElems (Split rooted (lit "/")) []) (lit "/")
  if rooted.getLast? = some 47 ∧ np ≠ lit "/" then np ++ lit "/" else np

/-- The handlers `main` registers. -/
inductive Route where
  | report
  | createGame | viewGame | saveGame | addScore | saveScore
  | createUser | viewUser | saveUser
  deriving DecidableEq, Repr

/-- The patterns registered by the source's `main`, in source order. -/
def routes : List (GoString × Route) :=
  [(lit "/", .report),
   (lit "/create-game/", .createGame), (lit "/edit-game/", .createGame),
   (lit "/view-game/", .viewGame), (lit "/save-game/", .saveGame),
   (lit "/add-score/", .addScore), (lit "/save-score/", .saveScore),
   (lit "/create-user/", .createUser), (lit "/edit-user/", .createUser),
   (lit "/view-user/", .viewUser), (lit "/save-user/", .saveUser)]

/-- The longest of the patterns ending in `/` that is a prefix of the path,
if any (`ServeMux.match` after the exact lookup). -/
def longestMatch (path : GoString) : List (GoString × Route) → Option (GoString × Route)
  | [] => none
  | (pat, h) :: rest =>
    match longestMatch path rest with
    | some (pat2, h2) =>
      if pat.getLast? = some 47 ∧ pat.isPrefixOf path ∧ pat2.length < pat.length then some (pat, h)
      else some (pat2, h2)
    | none => if pat.getLast? = some 47 ∧ pat.isPrefixOf path then some (pat, h) else none

/-- What `http.ServeMux` does with a request path (other than for the method
`CONNECT`). -/
inductive Dispatch where
  /-- A `301` to the path with a slash added or to the cleaned path. -/
  | redirect (target : GoString)
  /-- The registered handler that serves the request. -/
  | handler (h : Route)
  /-- No pattern matches: the mux's own `404`. -/
  | noHandler
  deriving DecidableEq, Repr

/-- The method `ServeMux.Handler` over the patterns of `main`. -/
def dispatch (path : GoString) : Dispatch :=
  let clean := cleanPath path
  if (routes.lookup clean).isNone ∧ (routes.lookup (clean ++ lit "/")).isSome
      ∧ clean.getLast? ≠ some 47 then .redirect (clean ++ lit "/")
  else if clean ≠ path then .redirect clean
  else
    match routes.lookup path with
    | some h => .handler h
    | none =>
      match longestMatch path routes with
      | some (_, h) => .handler h
      | none => .noHandler

/-- The handler function bound to each registration of `main`. -/
def Route.serve (h : Route) : Store → Request → Store × Response :=
  match h with
  | .report => reportHandler slugMake
  | .createGame => makeHandler (createGameHandler slugMake)
  | .viewGame => makeHandler (viewGameHandler slugMake)
  | .saveGame => makeHandler (saveGameHandler slugMake)
  | .addScore => makeHandler (addScoreHandler slugMake)
  | .saveScore => makeHandler (saveScoreHandler slugMake)
  | .createUser => makeHandler (createUserHandler slugMake)
  | .viewUser => makeHandler (viewUserHandler slugMake)
  | .saveUser => makeHandler (saveUserHandler slugMake)

/-- The server set up by the source's `main`: one request served. -/
def main (σ : Store) (r : Request) : Store × Response :=
  match dispatch r.path with
  | .redirect target => (σ, .moved target)
  | .handler h => h.serve slugMake σ r
  | .noHandler => (σ, .notFound)

end Entities

/-! ## The Slugifier -/

/-- The byte a slug holds for a byte of the title: a letter lower-cased, a
digit kept, anything else the separator `-`. -/
def slugChar (b : Byte) : Byte :=
  if 65 ≤ b.val ∧ b.val ≤ 90 then Fin.ofNat (b.val + 32)
  else if (97 ≤ b.val ∧ b.val ≤ 122) ∨ (48 ≤ b.val ∧ b.val ≤ 57) then b
  else 45

/-- Modelled from the spec: the Slugifier, the third-party `slug.Make`
(github.com/gosimple/slug), is not among the sources.  The specification
describes it as a "pure function, display text → normalized identifier
(lowercase, separator-joined, ASCII-safe)": the words of the title, in lower
case, joined by the separator `-`.  It also instantiates the parameter
`slugMake` in the closed examples, whose titles are plain ASCII words. -/
def Slugifier (s : GoString) : GoString :=
  Join ((Split (s.map slugChar) (lit "-")).filter fun w => w ≠ []) (lit "-")

/-! ## Auxiliary definitions for the statements -/

/-- Every key and every value of the map is valid UTF-8. -/
def GoMap.valid (m : GoMap) : Bool :=
  match m with
  | none => true
  | some es => es.all fun e => validUTF8 e.1 && validUTF8 e.2

/-- The store after serving the `save-score` requests `rs` for the game
`title` one after the other, and the responses given. -/
def runAppends (slugMake : GoString → GoString) (title : GoString) :
    Store → List Request → Store × List Response
  | σ, [] => (σ, [])
  | σ, r :: rs =>
    let step := saveScoreHandler slugMake σ r title
    let next := runAppends slugMake title step.1 rs
    (next.1, step.2 :: next.2)

/-- The stored `Metadata["scores"]` of the game `title`: what a successful
`loadGameData` finds; `none` when the load fails or returns nil. -/
def storedScores (slugMake : GoString → GoString) (σ : Store) (title : GoString) :
    Option GoString :=
  match loadGameData slugMake σ title with
  | (some p, none) => some (p.Metadata.get (lit "scores"))
  | _ => none

/-- The game `title` is stored under the slug `slug` with the scores text
`scores`, in the shape the save handler and then the score appends leave: a
non-nil `Metadata` with the keys `description` and, after the first append,
`scores`. -/
def GameStored (slugMake : GoString → GoString) (σ : Store) (title slug scores : GoString) :
    Prop :=
  ∃ displayTitle description meta,
    loadGameData slugMake σ title = (some ⟨slug, displayTitle, some meta, none⟩, none) ∧
    ((meta = [(lit "description", description)] ∧ scores = []) ∨
      meta = [(lit "scores", scores), (lit "description", description)])

/-- The line the scores text holds for an append: the four form values, each
as `json.Marshal` stores it, joined by commas (the record without its final
newline). -/
def storedLine (r : Request) : GoString :=
  toValidUTF8 (r.FormValue (lit "player-one")) ++ lit "," ++
    toValidUTF8 (r.FormValue (lit "score-one")) ++ lit "," ++
    toValidUTF8 (r.FormValue (lit "player-two")) ++ lit "," ++
    toValidUTF8 (r.FormValue (lit "score-two"))

/-- The record `saveScoreHandler` appends, without its final newline. -/
def recordLine (r : Request) : GoString :=
  r.FormValue (lit "player-one") ++ lit "," ++ r.FormValue (lit "score-one") ++ lit "," ++
    r.FormValue (lit "player-two") ++ lit "," ++ r.FormValue (lit "score-two")

/-- The opening tag of the score table of `viewGameHandler`. -/
def tableOpen : GoString := lit "<table style=\"border: 1px solid black;\">"

/-- The member names of the JSON object a file holds, in order (`[]` for
anything else). -/
def docKeys : Doc → List GoString
  | .json (.object ms) => ms.map Prod.fst
  | _ => []

/-- The name a listing derives from a file name: `".json"` and the kind
marker removed wherever they occur. -/
def entryName (kind f : GoString) : GoString :=
  Replace (Replace f (lit ".json") (lit "")) kind (lit "")

/-- The display title a listing prints for a loaded page. -/
def loadedTitle (q : Option Page) : GoString := (q.map Page.DisplayTitle).getD []

/-- The alternation of literal strings, nested as in `validPath`. -/
def Regex.oneOf : List GoString → Regex
  | [] => .cls fun _ => false
  | [v] => .str v
  | v :: w :: vs => .alt (.str v) (Regex.oneOf (w :: vs))

/-- What may follow the verb in a path, read off the pattern
`/?([a-zA-Z0-9-]+)?$`: nothing, a slash, a slug, or a slash and a slug; the
result is the slug (`""` when there is none). -/
def pathTail (r : GoString) : Option GoString :=
  if r.all slugByte then some r
  else
    match r with
    | 47 :: r2 => if r2.all slugByte then some r2 else none
    | _ => none

/-- The verb and the slug of a path, read off the pattern of `validPath`. -/
def matchPath (path : GoString) : Option (GoString × GoString) :=
  match path with
  | 47 :: r1 =>
    (verbs.find? fun v => v.isPrefixOf r1).bind fun v =>
      (pathTail (r1.drop v.length)).map fun slug => (v, slug)
  | _ => none

/-! ## Example requests, pages and directories -/

/-- A `save-game` or `save-user` request with the two form values. -/
def saveRequest (path title description : GoString) : Request :=
  ⟨path, [(lit "title", title), (lit "description", description)]⟩

/-- A `save-score` request with the four form values. -/
def scoreRequest (title p1 s1 p2 s2 : GoString) : Request :=
  ⟨lit "/save-score/" ++ title,
   [(lit "player-one", p1), (lit "score-one", s1), (lit "player-two", p2), (lit "score-two", s2)]⟩

/-- The game page `saveGameHandler` builds for the title "Trivia Night". -/
def triviaNight : Page :=
  ⟨lit "trivia-night", lit "Trivia Night", some [(lit "description", lit "quiz")], none⟩

/-- The store after `saveGameHandler` has saved the game "Trivia Night" onto
the empty directory. -/
def triviaStore : Store :=
  (saveGameHandler Slugifier (some [])
    (saveRequest (lit "/save-game/") (lit "Trivia Night") (lit "quiz")) (lit "")).1

/-- The two appends of the scenario: (Alice, 10, Bob, 7), then (Cy, 3, Dee, 9). -/
def triviaAppends : List Request :=
  [scoreRequest (lit "trivia-night") (lit "Alice") (lit "10") (lit "Bob") (lit "7"),
   scoreRequest (lit "trivia-night") (lit "Cy") (lit "3") (lit "Dee") (lit "9")]

/-- A page whose display title is the single byte `0xFF`, which is not UTF-8. -/
def latin1Page : Page := ⟨lit "x", [0xFF], none, none⟩

/-- An append whose first player name is the byte `0xFF`, which is not UTF-8. -/
def latin1Append : Request :=
  scoreRequest (lit "trivia-night") [0xFF] (lit "10") (lit "Bob") (lit "7")

/-- A user page. -/
def alice : Page := ⟨lit "alice", lit "Alice", some [(lit "description", lit "player")], none⟩

/-- A directory with one good user file and one whose text is not JSON. -/
def brokenBobDir : Dir :=
  [(lit "user-alice.json", some (jsonMarshal alice)), (lit "user-bob.json", some .malformed)]

/-- The directory of the scenario: `game-x.json`, `user-alice.json`,
`user-bob.json`, in file-name order. -/
def scenarioDir : Dir :=
  [(lit "game-x.json", some (jsonMarshal ⟨lit "x", lit "X", some [], none⟩)),
   (lit "user-alice.json", some (jsonMarshal alice)),
   (lit "user-bob.json", some (jsonMarshal ⟨lit "bob", lit "Bob", some [], none⟩))]

/-- The store after `saveGameHandler` has saved a game titled "User Guide"
onto the empty directory. -/
def userGuideStore : Store :=
  (saveGameHandler Slugifier (some [])
    (saveRequest (lit "/save-game/") (lit "User Guide") (lit "manual")) (lit "")).1

/-- The store after `saveGameHandler` has saved a game titled "Game Night"
onto the empty directory. -/
def gameNightStore : Store :=
  (saveGameHandler Slugifier (some [])
    (saveRequest (lit "/save-game/") (lit "Game Night") (lit "weekly")) (lit "")).1

/-- The store after `saveUserHandler` has saved the users "X" and then
"User X" onto the empty directory. -/
def userXStore : Store :=
  (saveUserHandler Slugifier
    (saveUserHandler Slugifier (some [])
      (saveRequest (lit "/save-user/") (lit "X") (lit "first")) (lit "")).1
    (saveRequest (lit "/save-user/") (lit "User X") (lit "second")) (lit "")).1

/-- The store after `saveGameHandler` has saved a game titled "Foo" onto the
empty directory. -/
def fooStore : Store :=
  (saveGameHandler Slugifier (some [])
    (saveRequest (lit "/save-game/") (lit "Foo") (lit "bar")) (lit "")).1

/-! # Properties -/

/-! ## UTF-8 coercion -/

theorem isCont_of_lt {c : Byte} (h : c.val < 128) : isCont c = false := by
  simp [isCont]; omega

theorem acceptSecond_of_lt (b0 : Byte) {c : Byte} (h : c.val < 128) :
    acceptSecond b0 c = false := by
  simp only [acceptSecond, isCont]
  split_ifs <;> simp <;> omega

theorem runeWidth_le (s : GoString) : runeWidth s ≤ s.length := by
  rcases s with _ | ⟨b0, _ | ⟨b1, _ | ⟨b2, _ | ⟨b3, t⟩⟩⟩⟩ <;>
    simp only [runeWidth, List.length_cons, List.length_nil] <;>
    (try split_ifs) <;> omega

theorem runeWidth_append_of_lt {a : GoString} (b : GoString) {c : Byte} (ha : a ≠ [])
    (hc : c.val < 128) : runeWidth (a ++ c :: b) = runeWidth a := by
  have h1 := isCont_of_lt hc
  rcases a with _ | ⟨b0, _ | ⟨b1, _ | ⟨b2, _ | ⟨b3, t⟩⟩⟩⟩
  · exact absurd rfl ha
  all_goals
    rcases b with _ | ⟨d0, _ | ⟨d1, b⟩⟩ <;>
    simp only [runeWidth, List.cons_append, List.nil_append, h1, acceptSecond_of_lt _ hc,
      Bool.and_false, Bool.false_and, Bool.false_eq_true, if_false]

theorem coerceScan_append_of_lt (b : GoString) {c : Byte} (hc : c.val < 128) :
    ∀ (a : GoString) (k : Nat), k ≤ a.length →
      coerceScan k (a ++ c :: b) = coerceScan k a ++ c :: coerceScan 0 b := by
  intro a
  induction a with
  | nil =>
    intro k hk
    have : k = 0 := by simpa using hk
    subst this
    have hw : runeWidth (c :: b) = 1 := by simp [runeWidth, hc]
    simp [coerceScan, hw]
  | cons x a ih =>
    intro k hk
    cases k with
    | succ k =>
      rw [List.cons_append]
      simp only [coerceScan]
      rw [ih k (by simpa using hk), List.cons_append]
    | zero =>
      have hw : runeWidth (x :: a ++ c :: b) = runeWidth (x :: a) :=
        runeWidth_append_of_lt b (by simp) hc
      have hle := runeWidth_le (x :: a)
      rw [List.cons_append] at hw ⊢
      simp only [coerceScan, hw]
      cases hr : runeWidth (x :: a) with
      | zero => simp only [ih 0 (Nat.zero_le _), List.append_assoc]
      | succ w =>
        rw [hr] at hle
        simp only [ih w (by simpa using hle), List.cons_append]

theorem validScan_append_of_lt (b : GoString) {c : Byte} (hc : c.val < 128) :
    ∀ (a : GoString) (k : Nat), k ≤ a.length →
      validScan k (a ++ c :: b) = (validScan k a && validScan 0 b) := by
  intro a
  induction a with
  | nil =>
    intro k hk
    have : k = 0 := by simpa using hk
    subst this
    have hw : runeWidth (c :: b) = 1 := by simp [runeWidth, hc]
    simp [validScan, hw]
  | cons x a ih =>
    intro k hk
    cases k with
    | succ k =>
      rw [List.cons_append]
      simp only [validScan]
      rw [ih k (by simpa using hk)]
    | zero =>
      have hw : runeWidth (x :: a ++ c :: b) = runeWidth (x :: a) :=
        runeWidth_append_of_lt b (by simp) hc
      have hle := runeWidth_le (x :: a)
      rw [List.cons_append] at hw ⊢
      simp only [validScan, hw]
      cases hr : runeWidth (x :: a) with
      | zero => simp
      | succ w =>
        rw [hr] at hle
        simp only [ih w (by simpa using hle)]

theorem coerceScan_of_valid : ∀ (s : GoString) (k : Nat), validScan k s = true → coerceScan k s = s := by
  intro s
  induction s with
  | nil => intro k _; cases k <;> rfl
  | cons x s ih =>
    intro k h
    cases k with
    | succ k => simp only [validScan] at h; simp only [coerceScan, ih k h]
    | zero =>
      simp only [validScan] at h
      simp only [coerceScan]
      cases hr : runeWidth (x :: s) with
      | zero => rw [hr] at h; simp at h
      | succ w => rw [hr] at h; simp only [ih w h]

theorem runeWidth_spec (x : Byte) (s : GoString) :
    runeWidth (x :: s) = 0 ∨
    (runeWidth (x :: s) = 1 ∧ ∀ t, runeWidth (x :: t) = 1) ∨
    (∃ b1 s2, s = b1 :: s2 ∧ runeWidth (x :: s) = 2 ∧ ∀ t, runeWidth (x :: b1 :: t) = 2) ∨
    (∃ b1 b2 s2, s = b1 :: b2 :: s2 ∧ runeWidth (x :: s) = 3 ∧
      ∀ t, runeWidth (x :: b1 :: b2 :: t) = 3) ∨
    (∃ b1 b2 b3 s2, s = b1 :: b2 :: b3 :: s2 ∧ runeWidth (x :: s) = 4 ∧
      ∀ t, runeWidth (x :: b1 :: b2 :: b3 :: t) = 4) := by
  by_cases h1 : x.val < 0x80
  · exact Or.inr (Or.inl ⟨by simp [runeWidth, h1], fun t => by simp [runeWidth, h1]⟩)
  by_cases h2 : x.val < 0xC2
  · exact Or.inl (by simp [runeWidth, h1, h2])
  by_cases h3 : x.val < 0xE0
  · rcases s with _ | ⟨b1, s2⟩
    · exact Or.inl (by simp [runeWidth, h1, h2, h3])
    by_cases c1 : isCont b1 = true
    · exact Or.inr (Or.inr (Or.inl ⟨b1, s2, rfl, by simp [runeWidth, h1, h2, h3, c1],
        fun t => by simp [runeWidth, h1, h2, h3, c1]⟩))
    · exact Or.inl (by simp [runeWidth, h1, h2, h3, c1])
  by_cases h4 : x.val < 0xF0
  · rcases s with _ | ⟨b1, _ | ⟨b2, s2⟩⟩
    · exact Or.inl (by simp [runeWidth, h1, h2, h3, h4])
    · exact Or.inl (by simp [runeWidth, h1, h2, h3, h4])
    by_cases c1 : (acceptSecond x b1 && isCont b2) = true
    · exact Or.inr (Or.inr (Or.inr (Or.inl ⟨b1, b2, s2, rfl,
        by simp only [runeWidth, h1, h2, h3, h4, c1, if_true, if_false],
        fun t => by simp only [runeWidth, h1, h2, h3, h4, c1, if_true, if_false]⟩)))
    · exact Or.inl (by simp [runeWidth, h1, h2, h3, h4, c1])
  by_cases h5 : x.val < 0xF5
  · rcases s with _ | ⟨b1, _ | ⟨b2, _ | ⟨b3, s2⟩⟩⟩
    · exact Or.inl (by simp [runeWidth, h1, h2, h3, h4, h5])
    · exact Or.inl (by simp [runeWidth, h1, h2, h3, h4, h5])
    · exact Or.inl (by simp [runeWidth, h1, h2, h3, h4, h5])
    by_cases c1 : (acceptSecond x b1 && isCont b2 && isCont b3) = true
    · exact Or.inr (Or.inr (Or.inr (Or.inr ⟨b1, b2, b3, s2, rfl,
        by simp only [runeWidth, h1, h2, h3, h4, h5, c1, if_true, if_false],
        fun t => by simp only [runeWidth, h1, h2, h3, h4, h5, c1, if_true, if_false]⟩)))
    · exact Or.inl (by simp [runeWidth, h1, h2, h3, h4, h5, c1])
  · exact Or.inl (by simp [runeWidth, h1, h2, h3, h4, h5])

theorem runeWidth_coerceScan (x : Byte) (s : GoString) (w : Nat) (h : runeWidth (x :: s) = w + 1) :
    runeWidth (x :: coerceScan w s) = w + 1 := by
  rcases runeWidth_spec x s with h0 | ⟨h1, ht⟩ | ⟨b1, s2, rfl, h2, ht⟩ |
      ⟨b1, b2, s2, rfl, h3, ht⟩ | ⟨b1, b2, b3, s2, rfl, h4, ht⟩
  · omega
  · have : w = 0 := by omega
    subst this; exact ht _
  · have : w = 1 := by omega
    subst this; simp only [coerceScan]; exact ht _
  · have : w = 2 := by omega
    subst this; simp only [coerceScan]; exact ht _
  · have : w = 3 := by omega
    subst this; simp only [coerceScan]; exact ht _

theorem validScan_coerceScan : ∀ (s : GoString) (k : Nat), k ≤ s.length →
    validScan k (coerceScan k s) = true := by
  intro s
  induction s with
  | nil => intro k _; cases k <;> rfl
  | cons x s ih =>
    intro k hk
    cases k with
    | succ k => simp only [coerceScan, validScan]; exact ih k (by simpa using hk)
    | zero =>
      have hle := runeWidth_le (x :: s)
      simp only [coerceScan]
      cases hr : runeWidth (x :: s) with
      | zero =>
        have h3 : ∀ t : GoString, runeWidth (0xEF :: 0xBF :: 0xBD :: t) = 3 := fun _ => rfl
        simp only [replacementChar, List.cons_append, List.nil_append, validScan, h3]
        exact ih 0 (Nat.zero_le _)
      | succ w =>
        rw [hr] at hle
        simp only [validScan, runeWidth_coerceScan x s w hr]
        exact ih w (by simpa using hle)

/-! ## Association lists -/

theorem lookup_filter_ne (k k0 : GoString) (h : k ≠ k0) (l : List (GoString × GoString)) :
    (l.filter fun e => e.1 != k0).lookup k = l.lookup k := by
  induction l with
  | nil => rfl
  | cons e l ih =>
    obtain ⟨a, v⟩ := e
    by_cases ha : a = k0
    · subst ha
      have hk : (k == a) = false := by simpa using h
      simp [List.filter_cons, List.lookup_cons, hk, ih]
    · have : (a != k0) = true := by simpa using ha
      simp only [List.filter_cons, this, if_true, List.lookup_cons, ih]

theorem lookup_liveEntries (k : GoString) (es : List (GoString × GoString)) :
    (liveEntries es).lookup k = es.lookup k := by
  induction es with
  | nil => rfl
  | cons e es ih =>
    obtain ⟨a, v⟩ := e
    simp only [liveEntries, List.lookup_cons]
    by_cases hk : k = a
    · subst hk; simp
    · have : (k == a) = false := by simpa using hk
      simp only [this, lookup_filter_ne k a hk, ih]

theorem nodup_keys_liveEntries (es : List (GoString × GoString)) :
    ((liveEntries es).map Prod.fst).Nodup := by
  induction es with
  | nil => simp [liveEntries]
  | cons e es ih =>
    obtain ⟨a, v⟩ := e
    simp only [liveEntries, List.map_cons, List.nodup_cons]
    constructor
    · simp [List.mem_map, List.mem_filter]
    · exact (List.Nodup.sublist ((List.filter_sublist _).map _) ih)

theorem lookup_eq_some_iff {l : List (GoString × GoString)} (nd : (l.map Prod.fst).Nodup)
    (k v : GoString) : l.lookup k = some v ↔ (k, v) ∈ l := by
  induction l with
  | nil => simp
  | cons e l ih =>
    obtain ⟨a, w⟩ := e
    simp only [List.map_cons, List.nodup_cons] at nd
    by_cases hk : k = a
    · subst hk
      simp only [List.lookup_cons, beq_self_eq_true, Option.some.injEq, List.mem_cons,
        Prod.mk.injEq, true_and]
      constructor
      · intro h; exact Or.inl h.symm
      · rintro (h | h)
        · exact h.symm
        · exact absurd (List.mem_map_of_mem Prod.fst h) nd.1
    · have hb : (k == a) = false := by simpa using hk
      simp only [List.lookup_cons, hb, ih nd.2, List.mem_cons, Prod.mk.injEq, hk, false_and,
        false_or]

theorem lookup_perm {l l2 : List (GoString × GoString)} (p : l.Perm l2)
    (nd : (l.map Prod.fst).Nodup) (k : GoString) : l.lookup k = l2.lookup k := by
  have nd2 : (l2.map Prod.fst).Nodup := (p.map Prod.fst).nodup_iff.mp nd
  apply Option.ext
  intro v
  simp only [Option.mem_def]
  rw [lookup_eq_some_iff nd, lookup_eq_some_iff nd2, p.mem_iff]

/-! ## `json.Marshal` followed by `json.Unmarshal` -/

theorem foldl_unmarshalMapMember (f g : GoString → GoString) (l : List (GoString × GoString)) :
    ∀ (acc : List (GoString × GoString)) (ok : Bool),
      (l.map fun e => (f e.1, JSON.string (g e.2))).foldl unmarshalMapMember (acc, ok) =
        ((l.map fun e => (f e.1, g e.2)).reverse ++ acc, ok) := by
  induction l with
  | nil => intro acc ok; rfl
  | cons e l ih =>
    intro acc ok
    simp only [List.map_cons, List.foldl_cons, unmarshalMapMember, ih, List.reverse_cons,
      List.append_assoc, List.singleton_append]

/-- What a map is after `json.Marshal` and `json.Unmarshal` into a nil map. -/
theorem unmarshalMap_marshalMap (m : GoMap) :
    unmarshalMap none (marshalMap m) =
      (m.map fun es =>
        (((liveEntries es).insertionSort fun a b => bytesLE a.1 b.1).map fun e =>
          (toValidUTF8 e.1, toValidUTF8 e.2)).reverse, true) := by
  cases m with
  | none => rfl
  | some es =>
    simp only [marshalMap, unmarshalMap, Option.getD_none, foldl_unmarshalMapMember,
      List.append_nil, Option.map_some']

/-- What `json.Unmarshal` reads back from what `json.Marshal` wrote. -/
theorem jsonUnmarshal_jsonMarshal (p : Page) :
    jsonUnmarshal (jsonMarshal p) =
      (some ⟨toValidUTF8 p.Title, toValidUTF8 p.DisplayTitle,
        (unmarshalMap none (marshalMap p.Metadata)).1,
        (unmarshalMap none (marshalMap p.HTMLMetadata)).1⟩, none) := by
  have h1 : findField (lit "Title") = some .Title := by decide
  have h2 : findField (lit "DisplayTitle") = some .DisplayTitle := by decide
  have h3 : findField (lit "Metadata") = some .Metadata := by decide
  have h4 : findField (lit "HTMLMetadata") = some .HTMLMetadata := by decide
  simp only [jsonMarshal, jsonUnmarshal, List.foldl_cons, List.foldl_nil, unmarshalMember, h1, h2,
    h3, h4, unmarshalString, Page.zero, unmarshalMap_marshalMap, Bool.and_true, if_true]

theorem toValidUTF8_of_valid {s : GoString} (h : validUTF8 s = true) : toValidUTF8 s = s :=
  coerceScan_of_valid s 0 h

theorem validUTF8_toValidUTF8 (s : GoString) : validUTF8 (toValidUTF8 s) = true :=
  validScan_coerceScan s 0 (Nat.zero_le _)

theorem mem_of_mem_liveEntries {e : GoString × GoString} :
    ∀ {es : List (GoString × GoString)}, e ∈ liveEntries es → e ∈ es := by
  intro es
  induction es with
  | nil => simp [liveEntries]
  | cons x es ih =>
    obtain ⟨a, v⟩ := x
    simp only [liveEntries, List.mem_cons]
    rintro (h | h)
    · exact Or.inl h
    · exact Or.inr (ih (List.mem_filter.mp h).1)

/-- A map whose strings are valid UTF-8 is read back with the same entries. -/
theorem find_roundTrip (m : GoMap) (hv : m.valid = true) (k : GoString) :
    GoMap.find (unmarshalMap none (marshalMap m)).1 k = GoMap.find m k := by
  cases m with
  | none => rfl
  | some es =>
    simp only [unmarshalMap_marshalMap, Option.map_some', GoMap.find]
    simp only [GoMap.valid, List.all_eq_true, Bool.and_eq_true] at hv
    have hperm := List.perm_insertionSort (fun a b : GoString × GoString => bytesLE a.1 b.1)
      (liveEntries es)
    have hsub : ∀ e ∈ (liveEntries es).insertionSort (fun a b => bytesLE a.1 b.1), e ∈ es := by
      intro e he
      exact mem_of_mem_liveEntries (hperm.mem_iff.mp he)
    have hid : ((liveEntries es).insertionSort fun a b => bytesLE a.1 b.1).map
        (fun e => (toValidUTF8 e.1, toValidUTF8 e.2)) =
        (liveEntries es).insertionSort fun a b => bytesLE a.1 b.1 := by
      conv_rhs => rw [← List.map_id ((liveEntries es).insertionSort fun a b => bytesLE a.1 b.1)]
      apply List.map_congr_left
      intro e he
      have := hv e (hsub e he)
      simp [toValidUTF8_of_valid this.1, toValidUTF8_of_valid this.2]
    rw [hid]
    have nd : (((liveEntries es).insertionSort fun a b => bytesLE a.1 b.1).map Prod.fst).Nodup :=
      (hperm.map Prod.fst).nodup_iff.mpr (nodup_keys_liveEntries es)
    rw [← lookup_perm (List.reverse_perm _).symm nd, lookup_perm hperm nd, lookup_liveEntries]

theorem isSome_roundTrip (m : GoMap) :
    (unmarshalMap none (marshalMap m)).1.isSome = m.isSome := by
  cases m <;> simp [unmarshalMap_marshalMap]

/-! ## The file store -/

theorem lookup_dirPut (n : GoString) (doc : Doc) (d : Dir) :
    (dirPut n doc d).lookup n = some (some doc) := by
  induction d with
  | nil => simp [dirPut]
  | cons e d ih =>
    obtain ⟨m, f⟩ := e
    simp only [dirPut]
    split_ifs with h1 h2
    · simp
    · simp
    · have : (n == m) = false := by simpa using fun h => h1 h.symm
      simp only [List.lookup_cons, this, ih]

theorem ReadFile_WriteFile {σ σ2 : Store} {f : GoString} {doc : Doc}
    (h : WriteFile σ f doc = .ok σ2) : ReadFile σ2 f = .ok doc := by
  unfold WriteFile at h
  cases σ with
  | none => simp at h
  | some d =>
    cases hn : dataName f with
    | none => simp [hn] at h
    | some n =>
      simp only [hn] at h
      split at h
      · simp at h
      · simp only [Except.ok.injEq] at h
        subst h
        simp only [ReadFile, hn, lookup_dirPut]

theorem WriteFile_of_ReadFile {σ : Store} {f : GoString} {doc0 : Doc} (doc : Doc)
    (h : ReadFile σ f = .ok doc0) : ∃ σ2, WriteFile σ f doc = .ok σ2 := by
  unfold ReadFile at h
  cases σ with
  | none => simp at h
  | some d =>
    cases hn : dataName f with
    | none => simp [hn] at h
    | some n =>
      simp only [hn] at h
      cases hl : d.lookup n with
      | none => simp [hl] at h
      | some o =>
        cases o with
        | none => simp [hl] at h
        | some doc1 => exact ⟨some (dirPut n doc d), by simp [WriteFile, hn, hl]⟩

variable (slugMake : GoString → GoString)

theorem loadGameData_of_save {σ σ2 : Store} {p : Page}
    (h : saveGameData slugMake σ p = .ok σ2) :
    loadGameData slugMake σ2 p.Title = jsonUnmarshal (jsonMarshal p) := by
  simp only [loadGameData, ReadFile_WriteFile h]

theorem loadUserData_of_save {σ σ2 : Store} {p : Page}
    (h : saveUserData slugMake σ p = .ok σ2) :
    loadUserData slugMake σ2 p.Title = jsonUnmarshal (jsonMarshal p) := by
  simp only [loadUserData, ReadFile_WriteFile h]

/-! ## C2: save, then load -/

/-- C2 as stated fails: a page whose `DisplayTitle` is the byte `0xFF` is saved
without error, and loading it by its slug returns the display title U+FFFD
(bytes EF BF BD), not the byte that was saved. -/
theorem round_trip_not_bytewise :
    saveGameData Slugifier (some []) latin1Page =
        .ok (some [(lit "game-x.json", some (jsonMarshal latin1Page))]) ∧
      loadGameData Slugifier (some [(lit "game-x.json", some (jsonMarshal latin1Page))])
        latin1Page.Title = (some ⟨lit "x", [0xEF, 0xBF, 0xBD], none, none⟩, none) ∧
      ([0xEF, 0xBF, 0xBD] : GoString) ≠ latin1Page.DisplayTitle := by
  refine ⟨rfl, ?_, by decide⟩
  decide

/-- C2, amended: for every page whose `DisplayTitle` and `Metadata` strings are
valid UTF-8 and for each kind, if saving the page onto a store succeeds then
loading it by its slug `p.Title` from the resulting store succeeds and returns
a page with the same `DisplayTitle` and the same `Metadata` (nil or not, and
the same entry for every key). -/
theorem save_load_round_trip (slugMake : GoString → GoString) (σ : Store) (p : Page)
    (hd : validUTF8 p.DisplayTitle = true) (hm : p.Metadata.valid = true) :
    (∀ σ2, saveGameData slugMake σ p = .ok σ2 →
      ∃ q, loadGameData slugMake σ2 p.Title = (some q, none) ∧
        q.DisplayTitle = p.DisplayTitle ∧ q.Metadata.isSome = p.Metadata.isSome ∧
        ∀ k, q.Metadata.find k = p.Metadata.find k) ∧
    (∀ σ2, saveUserData slugMake σ p = .ok σ2 →
      ∃ q, loadUserData slugMake σ2 p.Title = (some q, none) ∧
        q.DisplayTitle = p.DisplayTitle ∧ q.Metadata.isSome = p.Metadata.isSome ∧
        ∀ k, q.Metadata.find k = p.Metadata.find k) := by
  constructor
  · intro σ2 h
    refine ⟨_, by rw [loadGameData_of_save slugMake h, jsonUnmarshal_jsonMarshal], ?_, ?_, ?_⟩
    · exact toValidUTF8_of_valid hd
    · exact isSome_roundTrip _
    · exact find_roundTrip _ hm
  · intro σ2 h
    refine ⟨_, by rw [loadUserData_of_save slugMake h, jsonUnmarshal_jsonMarshal], ?_, ?_, ?_⟩
    · exact toValidUTF8_of_valid hd
    · exact isSome_roundTrip _
    · exact find_roundTrip _ hm

/-- C2, amended, at the game "Trivia Night" saved onto the empty directory:
the hypotheses hold, both saves succeed, and the conclusion follows. -/
theorem save_load_round_trip_witness :
    (validUTF8 triviaNight.DisplayTitle = true ∧ triviaNight.Metadata.valid = true) ∧
    (∃ σ2, saveGameData Slugifier (some []) triviaNight = .ok σ2) ∧
    (∃ σ2, saveUserData Slugifier (some []) triviaNight = .ok σ2) ∧
    ((∀ σ2, saveGameData Slugifier (some []) triviaNight = .ok σ2 →
      ∃ q, loadGameData Slugifier σ2 triviaNight.Title = (some q, none) ∧
        q.DisplayTitle = triviaNight.DisplayTitle ∧
        q.Metadata.isSome = triviaNight.Metadata.isSome ∧
        ∀ k, q.Metadata.find k = triviaNight.Metadata.find k) ∧
    (∀ σ2, saveUserData Slugifier (some []) triviaNight = .ok σ2 →
      ∃ q, loadUserData Slugifier σ2 triviaNight.Title = (some q, none) ∧
        q.DisplayTitle = triviaNight.DisplayTitle ∧
        q.Metadata.isSome = triviaNight.Metadata.isSome ∧
        ∀ k, q.Metadata.find k = triviaNight.Metadata.find k)) :=
  ⟨⟨by decide, by decide⟩, ⟨_, rfl⟩, ⟨_, rfl⟩,
    save_load_round_trip Slugifier (some []) triviaNight (by decide) (by decide)⟩

/-! ## Score appends -/

theorem toValidUTF8_append_of_valid {a : GoString} (b : GoString) (h : validUTF8 a = true) :
    toValidUTF8 (a ++ b) = a ++ toValidUTF8 b := by
  have key : ∀ (a : GoString) (k : Nat), k ≤ a.length → validScan k a = true →
      coerceScan k (a ++ b) = a ++ coerceScan 0 b := by
    intro a
    induction a with
    | nil =>
      intro k hk _
      have : k = 0 := by simpa using hk
      subst this; rfl
    | cons x a ih =>
      intro k hk hv
      cases k with
      | succ k =>
        rw [List.cons_append]
        simp only [validScan] at hv
        simp only [coerceScan, ih k (by simpa using hk) hv, List.cons_append]
      | zero =>
        have hle := runeWidth_le (x :: a)
        simp only [validScan] at hv
        cases hr : runeWidth (x :: a) with
        | zero => rw [hr] at hv; simp at hv
        | succ w =>
          rw [hr] at hv hle
          have hw : runeWidth (x :: (a ++ b)) = w + 1 := by
            rcases runeWidth_spec x a with h0 | ⟨h1, ht⟩ | ⟨b1, s2, rfl, h2, ht⟩ |
              ⟨b1, b2, s2, rfl, h3, ht⟩ | ⟨b1, b2, b3, s2, rfl, h4, ht⟩
            · omega
            · rw [ht]; omega
            · rw [List.cons_append, ht]; omega
            · rw [List.cons_append, List.cons_append, ht]; omega
            · rw [List.cons_append, List.cons_append, List.cons_append, ht]; omega
          rw [List.cons_append]
          simp only [coerceScan, hw, ih w (by simpa using hle) hv, List.cons_append]
  exact key a 0 (Nat.zero_le _) h

theorem validUTF8_append_of_lt (a b : GoString) {c : Byte} (hc : c.val < 128) :
    validUTF8 (a ++ c :: b) = (validUTF8 a && validUTF8 b) :=
  validScan_append_of_lt b hc a 0 (Nat.zero_le _)

theorem toValidUTF8_append_of_lt (a b : GoString) {c : Byte} (hc : c.val < 128) :
    toValidUTF8 (a ++ c :: b) = toValidUTF8 a ++ c :: toValidUTF8 b :=
  coerceScan_append_of_lt b hc a 0 (Nat.zero_le _)

theorem validUTF8_append {a b : GoString} (ha : validUTF8 a = true) (hb : validUTF8 b = true) :
    validUTF8 (a ++ b) = true := by
  have := validUTF8_toValidUTF8 (a ++ b)
  rwa [toValidUTF8_append_of_valid b ha, toValidUTF8_of_valid hb] at this

/-- The record of a request, written with its separators as bytes. -/
theorem scoreRecord_eq (r : Request) :
    scoreRecord r = r.FormValue (lit "player-one") ++ 44 :: (r.FormValue (lit "score-one") ++
      44 :: (r.FormValue (lit "player-two") ++ 44 :: (r.FormValue (lit "score-two") ++ [10]))) := by
  have h1 : lit "," = [44] := rfl
  have h2 : lit "\n" = [10] := rfl
  simp only [scoreRecord, h1, h2, List.append_assoc, List.singleton_append, List.cons_append,
    List.nil_append]

/-- The record as `json.Marshal` stores it: each form value coerced. -/
theorem toValidUTF8_scoreRecord (r : Request) :
    toValidUTF8 (scoreRecord r) =
      toValidUTF8 (r.FormValue (lit "player-one")) ++ 44 ::
        (toValidUTF8 (r.FormValue (lit "score-one")) ++ 44 ::
          (toValidUTF8 (r.FormValue (lit "player-two")) ++ 44 ::
            (toValidUTF8 (r.FormValue (lit "score-two")) ++ [10]))) := by
  have h0 : toValidUTF8 [] = [] := rfl
  rw [scoreRecord_eq, toValidUTF8_append_of_lt _ _ (by decide),
    toValidUTF8_append_of_lt _ _ (by decide), toValidUTF8_append_of_lt _ _ (by decide),
    toValidUTF8_append_of_lt _ _ (by decide), h0]

theorem marshal_first_append (s d : GoString) :
    (unmarshalMap none (marshalMap (some [(lit "scores", s), (lit "description", d)]))).1 =
      some [(lit "scores", toValidUTF8 s), (lit "description", toValidUTF8 d)] := by
  have h1 : (lit "description" != lit "scores") = true := by decide
  have h2 : bytesLE (lit "scores") (lit "description") = false := by decide
  have h3 : toValidUTF8 (lit "scores") = lit "scores" := by decide
  have h4 : toValidUTF8 (lit "description") = lit "description" := by decide
  simp [unmarshalMap_marshalMap, liveEntries, List.insertionSort, List.orderedInsert, h1, h2, h3,
    h4]

theorem marshal_next_append (s s0 d : GoString) :
    (unmarshalMap none (marshalMap
      (some [(lit "scores", s), (lit "scores", s0), (lit "description", d)]))).1 =
      some [(lit "scores", toValidUTF8 s), (lit "description", toValidUTF8 d)] := by
  have h1 : (lit "description" != lit "scores") = true := by decide
  have h2 : bytesLE (lit "scores") (lit "description") = false := by decide
  have h3 : toValidUTF8 (lit "scores") = lit "scores" := by decide
  have h4 : toValidUTF8 (lit "description") = lit "description" := by decide
  simp [unmarshalMap_marshalMap, liveEntries, List.insertionSort, List.orderedInsert, h1, h2, h3,
    h4]

theorem marshal_description (d : GoString) :
    (unmarshalMap none (marshalMap (some [(lit "description", d)]))).1 =
      some [(lit "description", toValidUTF8 d)] := by
  have h4 : toValidUTF8 (lit "description") = lit "description" := by decide
  simp [unmarshalMap_marshalMap, liveEntries, List.insertionSort, List.orderedInsert, h4]

variable (slugMake : GoString → GoString)

theorem loadGameData_congr (σ : Store) {t t2 : GoString} (h : slugMake t = slugMake t2) :
    loadGameData slugMake σ t = loadGameData slugMake σ t2 := by
  simp only [loadGameData, h]

theorem ReadFile_of_loadGameData {σ : Store} {t : GoString} {q : Option Page}
    (h : loadGameData slugMake σ t = (q, none)) :
    ∃ doc, ReadFile σ (lit "data/game-" ++ slugMake t ++ lit ".json") = .ok doc := by
  unfold loadGameData at h
  cases hr : ReadFile σ (lit "data/game-" ++ slugMake t ++ lit ".json") with
  | error e => simp only [hr] at h; simp at h
  | ok doc => exact ⟨doc, rfl⟩

/-- The save handler leaves the game stored with no scores yet. -/
theorem gameStored_of_saveGameHandler {σ σ0 : Store} {r0 : Request} {t0 target t : GoString}
    (hsave : saveGameHandler slugMake σ r0 t0 = (σ0, .found target))
    (hslug : validUTF8 (slugMake (r0.FormValue (lit "title"))) = true)
    (ht : slugMake t = slugMake (slugMake (r0.FormValue (lit "title")))) :
    GameStored slugMake σ0 t (slugMake (r0.FormValue (lit "title"))) [] := by
  unfold saveGameHandler at hsave
  simp only at hsave
  split at hsave
  · simp at hsave
  · rename_i σ2 hok
    simp only [Prod.mk.injEq] at hsave
    obtain ⟨rfl, -⟩ := hsave
    refine ⟨toValidUTF8 (r0.FormValue (lit "title")),
      toValidUTF8 (r0.FormValue (lit "description")), _, ?_, Or.inl ⟨rfl, rfl⟩⟩
    rw [loadGameData_congr slugMake _ ht]
    have := loadGameData_of_save slugMake hok
    simp only at this
    rw [this, jsonUnmarshal_jsonMarshal, marshal_description, toValidUTF8_of_valid hslug]
    rfl

/-- One score append on a stored game: it answers with the redirect and
leaves the game stored with the record, coerced to UTF-8, appended. -/
theorem gameStored_saveScoreHandler {σ : Store} {t slug scores : GoString} (r : Request)
    (hst : GameStored slugMake σ t slug scores)
    (hslug : validUTF8 slug = true) (hsc : validUTF8 scores = true)
    (ht : slugMake t = slugMake slug) :
    (saveScoreHandler slugMake σ r t).2 = .found (lit "/view-game/" ++ slug) ∧
      GameStored slugMake (saveScoreHandler slugMake σ r t).1 t slug
        (scores ++ toValidUTF8 (scoreRecord r)) := by
  obtain ⟨dt, d, meta, hload, hshape⟩ := hst
  have hget : GoMap.get (some meta) (lit "scores") = scores := by
    rcases hshape with ⟨rfl, rfl⟩ | rfl
    · have : ((lit "scores" : GoString) == lit "description") = false := by decide
      simp [GoMap.get, List.lookup_cons, this]
    · simp [GoMap.get, List.lookup_cons]
  obtain ⟨doc0, hread⟩ := ReadFile_of_loadGameData slugMake hload
  rw [ht] at hread
  obtain ⟨σ2, hw⟩ := WriteFile_of_ReadFile (jsonMarshal
    ⟨slug, dt, some ((lit "scores", scores ++ scoreRecord r) :: meta), none⟩) hread
  have hsaved : saveGameData slugMake σ
      ⟨slug, dt, some ((lit "scores", scores ++ scoreRecord r) :: meta), none⟩ = .ok σ2 := hw
  have hstep : saveScoreHandler slugMake σ r t = (σ2, .found (lit "/view-game/" ++ slug)) := by
    simp only [saveScoreHandler, hload, hget, GoMap.set, hsaved]
  rw [hstep]
  refine ⟨rfl, ?_⟩
  have hnew := loadGameData_of_save slugMake hsaved
  simp only at hnew
  rw [jsonUnmarshal_jsonMarshal, toValidUTF8_of_valid hslug] at hnew
  refine ⟨toValidUTF8 dt, toValidUTF8 d, _, ?_, Or.inr rfl⟩
  rw [loadGameData_congr slugMake _ ht, hnew]
  rcases hshape with ⟨rfl, rfl⟩ | rfl
  · rw [marshal_first_append, toValidUTF8_append_of_valid _ hsc]
    rfl
  · rw [marshal_next_append, toValidUTF8_append_of_valid _ hsc]
    rfl

/-- The texts appended by a run of requests, as stored. -/
theorem gameStored_runAppends {t slug : GoString}
    (hslug : validUTF8 slug = true) (ht : slugMake t = slugMake slug) :
    ∀ (rs : List Request) (σ : Store) (scores : GoString),
      GameStored slugMake σ t slug scores → validUTF8 scores = true →
      (runAppends slugMake t σ rs).2 = rs.map (fun _ => .found (lit "/view-game/" ++ slug)) ∧
      GameStored slugMake (runAppends slugMake t σ rs).1 t slug
        (scores ++ (rs.map fun r => toValidUTF8 (scoreRecord r)).flatten) := by
  intro rs
  induction rs with
  | nil => intro σ scores hst _; simpa [runAppends] using hst
  | cons r rs ih =>
    intro σ scores hst hsc
    obtain ⟨h1, h2⟩ := gameStored_saveScoreHandler slugMake r hst hslug hsc ht
    have hv : validUTF8 (scores ++ toValidUTF8 (scoreRecord r)) = true :=
      validUTF8_append hsc (validUTF8_toValidUTF8 _)
    obtain ⟨h3, h4⟩ := ih _ _ h2 hv
    simp only [runAppends, h1, h3, List.map_cons, List.flatten_cons, true_and]
    simpa [List.append_assoc] using h4

theorem storedScores_of_gameStored {σ : Store} {t slug scores : GoString}
    (hst : GameStored slugMake σ t slug scores) :
    storedScores slugMake σ t = some scores := by
  obtain ⟨dt, d, meta, hload, hshape⟩ := hst
  simp only [storedScores, hload]
  rcases hshape with ⟨rfl, rfl⟩ | rfl
  · have : ((lit "scores" : GoString) == lit "description") = false := by decide
    simp [GoMap.get, List.lookup_cons, this]
  · simp [GoMap.get, List.lookup_cons]

/-! ## C1: the stored scores after `k` appends -/

theorem validUTF8_scoreRecord {r : Request}
    (h : validUTF8 (r.FormValue (lit "player-one")) = true ∧
      validUTF8 (r.FormValue (lit "score-one")) = true ∧
      validUTF8 (r.FormValue (lit "player-two")) = true ∧
      validUTF8 (r.FormValue (lit "score-two")) = true) :
    validUTF8 (scoreRecord r) = true := by
  have h0 : validUTF8 [] = true := rfl
  rw [scoreRecord_eq, validUTF8_append_of_lt _ _ (by decide),
    validUTF8_append_of_lt _ _ (by decide), validUTF8_append_of_lt _ _ (by decide),
    validUTF8_append_of_lt _ _ (by decide), h.1, h.2.1, h.2.2.1, h.2.2.2, h0]
  rfl

/-- C1 as stated fails: after the save handler has stored "Trivia Night", the
append of (`0xFF`, 10, Bob, 7) succeeds, but the stored scores text holds the
record with U+FFFD (bytes EF BF BD) in place of the byte `0xFF`, not the
record of the call. -/
theorem score_append_not_verbatim :
    (saveScoreHandler Slugifier triviaStore latin1Append (lit "trivia-night")).2 =
        .found (lit "/view-game/trivia-night") ∧
      storedScores Slugifier
        (saveScoreHandler Slugifier triviaStore latin1Append (lit "trivia-night")).1
        (lit "trivia-night") = some ([0xEF, 0xBF, 0xBD] ++ lit ",10,Bob,7\n") ∧
      scoreRecord latin1Append = [0xFF] ++ lit ",10,Bob,7\n" ∧
      ([0xEF, 0xBF, 0xBD] ++ lit ",10,Bob,7\n" : GoString) ≠ [0xFF] ++ lit ",10,Bob,7\n" := by
  refine ⟨by decide, by decide, by decide, by decide⟩

/-- C1, amended: for every game stored by the save handler (its slug being
valid UTF-8, as the ASCII output of `slug.Make` is) and every sequence `rs` of
appends addressed to it whose four form values are valid UTF-8, every append
answers with the redirect, and after the first `n` appends, for every `n`,
the stored `Metadata["scores"]` is exactly the concatenation of the records
`player1,score1,player2,score2\n` of these `n` calls in call order; so each
append leaves the text stored before it as an unaltered prefix. -/
theorem score_append (slugMake : GoString → GoString) (σ σ0 : Store) (r0 : Request)
    (t0 target t : GoString) (rs : List Request)
    (hsave : saveGameHandler slugMake σ r0 t0 = (σ0, .found target))
    (hslug : validUTF8 (slugMake (r0.FormValue (lit "title"))) = true)
    (ht : slugMake t = slugMake (slugMake (r0.FormValue (lit "title"))))
    (hv : ∀ r ∈ rs, validUTF8 (r.FormValue (lit "player-one")) = true ∧
      validUTF8 (r.FormValue (lit "score-one")) = true ∧
      validUTF8 (r.FormValue (lit "player-two")) = true ∧
      validUTF8 (r.FormValue (lit "score-two")) = true) (n : Nat) :
    (runAppends slugMake t σ0 (rs.take n)).2 =
        (rs.take n).map (fun _ =>
          .found (lit "/view-game/" ++ slugMake (r0.FormValue (lit "title")))) ∧
      storedScores slugMake (runAppends slugMake t σ0 (rs.take n)).1 t =
        some ((rs.take n).map scoreRecord).flatten := by
  have h0 := gameStored_of_saveGameHandler slugMake hsave hslug ht
  obtain ⟨h1, h2⟩ := gameStored_runAppends slugMake hslug ht (rs.take n) σ0 [] h0 rfl
  refine ⟨h1, ?_⟩
  rw [storedScores_of_gameStored slugMake h2, List.nil_append]
  congr 2
  apply List.map_congr_left
  intro r hr
  exact toValidUTF8_of_valid (validUTF8_scoreRecord (hv r (List.mem_of_mem_take hr)))

/-- C1, amended, at the scenario of the specification: "Trivia Night" saved
onto the empty directory, then (Alice, 10, Bob, 7) and (Cy, 3, Dee, 9)
appended to `trivia-night`. -/
theorem score_append_witness :
    (runAppends Slugifier (lit "trivia-night") triviaStore triviaAppends).2 =
        [.found (lit "/view-game/trivia-night"), .found (lit "/view-game/trivia-night")] ∧
      storedScores Slugifier
        (runAppends Slugifier (lit "trivia-night") triviaStore triviaAppends).1
        (lit "trivia-night") = some (lit "Alice,10,Bob,7\nCy,3,Dee,9\n") :=
  score_append Slugifier (some []) triviaStore
    (saveRequest (lit "/save-game/") (lit "Trivia Night") (lit "quiz")) (lit "")
    (lit "/view-game/trivia-night") (lit "trivia-night") triviaAppends rfl (by decide) (by decide)
    (by decide) 2

/-! ## Splitting on a single byte -/

theorem splitScan_ne_nil (sep : GoString) : ∀ (s : GoString) (k : Nat), splitScan sep k s ≠ [] := by
  intro s
  induction s with
  | nil => intro k; cases k <;> simp [splitScan]
  | cons x s ih =>
    intro k
    cases k with
    | succ k => simpa [splitScan] using ih k
    | zero =>
      simp only [splitScan]
      split_ifs
      · simp
      · split <;> simp

theorem splitScan_cons (c x : Byte) (t : GoString) :
    splitScan [c] 0 (x :: t) =
      if x = c then [] :: splitScan [c] 0 t
      else (match splitScan [c] 0 t with
        | f :: fs => (x :: f) :: fs
        | [] => [[x]]) := by
  by_cases h : x = c
  · subst h; simp [splitScan, List.isPrefixOf]
  · have : (c == x) = false := by simpa using fun e => h e.symm
    simp [splitScan, List.isPrefixOf, this, h]

theorem splitScan_of_not_mem (c : Byte) : ∀ (a : GoString), c ∉ a → splitScan [c] 0 a = [a] := by
  intro a
  induction a with
  | nil => intro _; rfl
  | cons x a ih =>
    intro h
    simp only [List.mem_cons, not_or] at h
    rw [splitScan_cons, if_neg (fun e => h.1 e.symm), ih h.2]

theorem splitScan_append (c : Byte) (b : GoString) :
    ∀ (a : GoString), c ∉ a → splitScan [c] 0 (a ++ c :: b) = a :: splitScan [c] 0 b := by
  intro a
  induction a with
  | nil => intro _; simp [splitScan_cons]
  | cons x a ih =>
    intro h
    simp only [List.mem_cons, not_or] at h
    rw [List.cons_append, splitScan_cons, if_neg (fun e => h.1 e.symm), ih h.2]

theorem Split_single (s : GoString) (c : Byte) : Split s [c] = splitScan [c] 0 s := by
  simp [Split]

theorem length_splitScan (c : Byte) :
    ∀ (s : GoString), (splitScan [c] 0 s).length = s.count c + 1 := by
  intro s
  induction s with
  | nil => rfl
  | cons x s ih =>
    rw [splitScan_cons]
    by_cases h : x = c
    · subst h; simp [ih]
    · have hne : (x == c) = false := by simpa using h
      rw [if_neg h, List.count_cons, hne]
      cases hs : splitScan [c] 0 s with
      | nil => exact absurd hs (splitScan_ne_nil _ _ _)
      | cons f fs => rw [hs] at ih; simpa using ih

/-- The lines of a text made of newline-terminated lines. -/
theorem splitScan_lines (c : Byte) :
    ∀ (ls : List GoString), (∀ l ∈ ls, c ∉ l) →
      splitScan [c] 0 (ls.map fun l => l ++ [c]).flatten = ls ++ [[]] := by
  intro ls
  induction ls with
  | nil => intro _; rfl
  | cons l ls ih =>
    intro h
    have h1 : c ∉ l := h l (List.mem_cons_self _ _)
    have h2 := ih fun l2 hl => h l2 (List.mem_cons_of_mem _ hl)
    simp only [List.map_cons, List.flatten_cons, List.append_assoc, List.singleton_append,
      List.cons_append]
    rw [splitScan_append c _ l h1, List.nil_append, h2]

/-! ## Coercion keeps the ASCII bytes -/

theorem mem_coerceScan {c : Byte} (hc : c.val < 128) :
    ∀ (s : GoString) (k : Nat), c ∈ coerceScan k s → c ∈ s := by
  intro s
  induction s with
  | nil => intro k h; cases k <;> simp [coerceScan] at h
  | cons x s ih =>
    intro k h
    cases k with
    | succ k =>
      simp only [coerceScan, List.mem_cons] at h ⊢
      exact h.imp id (ih k)
    | zero =>
      simp only [coerceScan] at h
      cases hr : runeWidth (x :: s) with
      | zero =>
        rw [hr] at h
        simp only [replacementChar, List.cons_append, List.nil_append, List.mem_cons] at h
        rcases h with h | h | h | h
        · subst h; exact absurd hc (by decide)
        · subst h; exact absurd hc (by decide)
        · subst h; exact absurd hc (by decide)
        · exact List.mem_cons_of_mem _ (ih 0 h)
      | succ w =>
        rw [hr] at h
        simp only [List.mem_cons] at h ⊢
        exact h.imp id (ih w)

theorem not_mem_toValidUTF8 {c : Byte} (hc : c.val < 128) {s : GoString} (h : c ∉ s) :
    c ∉ toValidUTF8 s := fun hm => h (mem_coerceScan hc s 0 hm)

/-! ## C10: the score table of `viewGameHandler` -/

theorem toValidUTF8_scoreRecord_eq (r : Request) :
    toValidUTF8 (scoreRecord r) = storedLine r ++ [10] := by
  have h1 : lit "," = [44] := rfl
  rw [toValidUTF8_scoreRecord]
  simp only [storedLine, h1, List.append_assoc, List.singleton_append, List.cons_append,
    List.nil_append]

theorem storedLine_spec {r : Request}
    (h : (10 : Byte) ∉ r.FormValue (lit "player-one") ∧ (10 : Byte) ∉ r.FormValue (lit "score-one") ∧
      (10 : Byte) ∉ r.FormValue (lit "player-two") ∧ (10 : Byte) ∉ r.FormValue (lit "score-two")) :
    (10 : Byte) ∉ storedLine r ∧ storedLine r ≠ [] ∧
      4 ≤ (Split (storedLine r) (lit ",")).length := by
  have h1 : lit "," = [44] := rfl
  have n1 := not_mem_toValidUTF8 (c := 10) (by decide) h.1
  have n2 := not_mem_toValidUTF8 (c := 10) (by decide) h.2.1
  have n3 := not_mem_toValidUTF8 (c := 10) (by decide) h.2.2.1
  have n4 := not_mem_toValidUTF8 (c := 10) (by decide) h.2.2.2
  have hne : (10 : Byte) ≠ 44 := by decide
  refine ⟨?_, ?_, ?_⟩
  · simp only [storedLine, h1, List.mem_append, List.mem_singleton, not_or]
    exact ⟨⟨⟨⟨⟨⟨n1, hne⟩, n2⟩, hne⟩, n3⟩, hne⟩, n4⟩
  · simp [storedLine, h1]
  · rw [h1, Split_single, length_splitScan]
    simp only [storedLine, h1, List.count_append, List.count_singleton_self]
    omega

theorem scoreRow_isSome {s : GoString} (h : 4 ≤ (Split s (lit ",")).length) :
    (scoreRow s).isSome = true := by
  unfold scoreRow
  rcases hs : Split s (lit ",") with _ | ⟨d0, _ | ⟨d1, _ | ⟨d2, _ | ⟨d3, ds⟩⟩⟩⟩ <;>
    rw [hs] at h <;> simp at h ⊢

theorem scoreRows_lines :
    ∀ (ls : List GoString) (acc : GoString),
      (∀ l ∈ ls, l ≠ [] ∧ (scoreRow l).isSome = true) →
      scoreRows (ls ++ [[]]) acc =
        some (acc ++ (ls.map fun l => (scoreRow l).getD []).flatten) := by
  intro ls
  induction ls with
  | nil => intro acc _; simp [scoreRows, lit]
  | cons l ls ih =>
    intro acc h
    obtain ⟨hne, hsome⟩ := h l (List.mem_cons_self _ _)
    obtain ⟨row, hrow⟩ := Option.isSome_iff_exists.mp hsome
    have hl : l ≠ lit "" := hne
    rw [List.cons_append]
    simp only [scoreRows, hl, ne_eq, not_false_eq_true, if_true, hrow]
    rw [ih _ fun l2 hl2 => h l2 (List.mem_cons_of_mem _ hl2)]
    simp [hrow, List.append_assoc]

theorem formatScores_eq (p : Page) :
    formatScores p =
      (scoreRows (Split (p.Metadata.get (lit "scores")) (lit "\n")) tableOpen).map
        fun t => t ++ lit "</table>" := by
  unfold formatScores
  by_cases h : p.Metadata.get (lit "scores") = lit ""
  · rw [h]; rfl
  · simp only [ne_eq, h, not_false_eq_true, if_true]; rfl

/-- The score table after a run of appends, through the store: the stored
scores text splits on "\n" into the stored lines of the appends followed by
one empty string, every non-empty line splits on "," into at least four
fields, and `viewGameHandler` renders `view-game` with one row per append. -/
theorem score_table_of_appends (slugMake : GoString → GoString) (σ σ0 : Store) (r0 : Request)
    (t0 target t : GoString) (rs : List Request) (req : Request)
    (hsave : saveGameHandler slugMake σ r0 t0 = (σ0, .found target))
    (hslug : validUTF8 (slugMake (r0.FormValue (lit "title"))) = true)
    (ht : slugMake t = slugMake (slugMake (r0.FormValue (lit "title"))))
    (hnl : ∀ r ∈ rs, (10 : Byte) ∉ r.FormValue (lit "player-one") ∧
      (10 : Byte) ∉ r.FormValue (lit "score-one") ∧
      (10 : Byte) ∉ r.FormValue (lit "player-two") ∧
      (10 : Byte) ∉ r.FormValue (lit "score-two")) :
    ∃ (scores : GoString) (rows : List GoString) (p : Page),
      storedScores slugMake (runAppends slugMake t σ0 rs).1 t = some scores ∧
      Split scores (lit "\n") = rs.map storedLine ++ [lit ""] ∧
      (∀ s ∈ Split scores (lit "\n"), s ≠ lit "" → 4 ≤ (Split s (lit ",")).length) ∧
      rs.map (fun r => scoreRow (storedLine r)) = rows.map some ∧
      viewGameHandler slugMake (runAppends slugMake t σ0 rs).1 req t =
        ((runAppends slugMake t σ0 rs).1, renderTemplate (lit "view-game") (some p)) ∧
      p.HTMLMetadata = some [(lit "scores", tableOpen ++ rows.flatten ++ lit "</table>")] := by
  have h0 := gameStored_of_saveGameHandler slugMake hsave hslug ht
  obtain ⟨-, h2⟩ := gameStored_runAppends slugMake hslug ht rs σ0 [] h0 rfl
  have hnl2 : lit "\n" = [10] := rfl
  have hsc : ([] : GoString) ++ (rs.map fun r => toValidUTF8 (scoreRecord r)).flatten =
      ((rs.map storedLine).map fun l => l ++ [10]).flatten := by
    simp only [List.nil_append, List.map_map]
    congr 1
    apply List.map_congr_left
    intro r _
    exact toValidUTF8_scoreRecord_eq r
  rw [hsc] at h2
  have hlines : ∀ l ∈ rs.map storedLine, (10 : Byte) ∉ l ∧ l ≠ [] ∧
      4 ≤ (Split l (lit ",")).length := by
    intro l hl
    obtain ⟨r, hr, rfl⟩ := List.mem_map.mp hl
    exact storedLine_spec (hnl r hr)
  have hsplit : Split ((rs.map storedLine).map fun l => l ++ [10]).flatten (lit "\n") =
      rs.map storedLine ++ [lit ""] := by
    rw [hnl2, Split_single, splitScan_lines 10 _ fun l hl => (hlines l hl).1]
    rfl
  have hstored := storedScores_of_gameStored slugMake h2
  obtain ⟨dt, d, meta, hload, hshape⟩ := h2
  have hget : GoMap.get (some meta) (lit "scores") =
      ((rs.map storedLine).map fun l => l ++ [10]).flatten := by
    simpa [storedScores, hload] using hstored
  refine ⟨_, (rs.map storedLine).map (fun l => (scoreRow l).getD []),
    ⟨slugMake (r0.FormValue (lit "title")), dt, some meta, some [(lit "scores",
      tableOpen ++ ((rs.map storedLine).map (fun l => (scoreRow l).getD [])).flatten ++
        lit "</table>")]⟩, hstored, hsplit, ?_, ?_, ?_, rfl⟩
  · intro s hs hne
    rw [hsplit, List.mem_append, List.mem_singleton] at hs
    rcases hs with hs | hs
    · exact (hlines s hs).2.2
    · exact absurd hs hne
  · simp only [List.map_map]
    apply List.map_congr_left
    intro r hr
    have := scoreRow_isSome (hlines _ (List.mem_map_of_mem storedLine hr)).2.2
    obtain ⟨row, hrow⟩ := Option.isSome_iff_exists.mp this
    simp [hrow]
  · have hrows := scoreRows_lines (rs.map storedLine) tableOpen fun l hl =>
      ⟨(hlines l hl).2.1, scoreRow_isSome (hlines l hl).2.2⟩
    have hfmt := formatScores_eq ⟨slugMake (r0.FormValue (lit "title")), dt, some meta, none⟩
    simp only [hget, hsplit] at hfmt
    have hl : lit "" = ([] : GoString) := rfl
    rw [hl, hrows] at hfmt
    simp only [viewGameHandler, hload, hfmt, Option.map_some']

theorem scoreRecord_eq_recordLine (r : Request) : scoreRecord r = recordLine r ++ [10] := by
  have h2 : lit "\n" = [10] := rfl
  simp only [scoreRecord, recordLine, h2]

theorem recordLine_spec {r : Request}
    (h : (10 : Byte) ∉ r.FormValue (lit "player-one") ∧ (10 : Byte) ∉ r.FormValue (lit "score-one") ∧
      (10 : Byte) ∉ r.FormValue (lit "player-two") ∧ (10 : Byte) ∉ r.FormValue (lit "score-two")) :
    (10 : Byte) ∉ recordLine r ∧ recordLine r ≠ [] ∧
      4 ≤ (Split (recordLine r) (lit ",")).length := by
  have h1 : lit "," = [44] := rfl
  have hne : (10 : Byte) ≠ 44 := by decide
  refine ⟨?_, ?_, ?_⟩
  · simp only [recordLine, h1, List.mem_append, List.mem_singleton, not_or]
    exact ⟨⟨⟨⟨⟨⟨h.1, hne⟩, h.2.1⟩, hne⟩, h.2.2.1⟩, hne⟩, h.2.2.2⟩
  · simp [recordLine, h1]
  · rw [h1, Split_single, length_splitScan]
    simp only [recordLine, h1, List.count_append, List.count_singleton_self]
    omega

/-- The score table of a scores text made of newline-terminated lines with at
least four fields each. -/
theorem formatScores_lines (p : Page) (ls : List GoString)
    (hget : p.Metadata.get (lit "scores") = (ls.map fun l => l ++ [10]).flatten)
    (hls : ∀ l ∈ ls, (10 : Byte) ∉ l ∧ l ≠ [] ∧ 4 ≤ (Split l (lit ",")).length) :
    Split (p.Metadata.get (lit "scores")) (lit "\n") = ls ++ [lit ""] ∧
      ls.map scoreRow = (ls.map fun l => (scoreRow l).getD []).map some ∧
      formatScores p =
        some (tableOpen ++ (ls.map fun l => (scoreRow l).getD []).flatten ++ lit "</table>") := by
  have hnl2 : lit "\n" = [10] := rfl
  have hsplit : Split (p.Metadata.get (lit "scores")) (lit "\n") = ls ++ [lit ""] := by
    rw [hget, hnl2, Split_single, splitScan_lines 10 _ fun l hl => (hls l hl).1]
    rfl
  refine ⟨hsplit, ?_, ?_⟩
  · simp only [List.map_map]
    apply List.map_congr_left
    intro l hl
    obtain ⟨row, hrow⟩ := Option.isSome_iff_exists.mp (scoreRow_isSome (hls l hl).2.2)
    simp [hrow]
  · have hrows := scoreRows_lines ls tableOpen fun l hl =>
      ⟨(hls l hl).2.1, scoreRow_isSome (hls l hl).2.2⟩
    have hl : lit "" = ([] : GoString) := rfl
    rw [formatScores_eq, hsplit, hl, hrows]
    rfl

/-- C10: for every sequence `rs` of appends whose four form values contain no
newline byte: (1) a scores text built from the empty string by appending the
records of `rs` splits on "\n" into the lines of these records, in append
order, followed by one empty string; every non-empty line splits on "," into
at least four fields, so the accesses `scoreData[0..3]` are within bounds; and
the table `viewGameHandler` formats has exactly one row per record, in append
order.  (2) The same holds through the store: for every game stored by the
save handler (its slug being valid UTF-8, as the ASCII output of `slug.Make`
is) to which `rs` is appended by `saveScoreHandler`, `viewGameHandler` does not
panic and renders `view-game` with one row per append, in append order. -/
theorem score_table_index_safe (rs : List Request)
    (hnl : ∀ r ∈ rs, (10 : Byte) ∉ r.FormValue (lit "player-one") ∧
      (10 : Byte) ∉ r.FormValue (lit "score-one") ∧
      (10 : Byte) ∉ r.FormValue (lit "player-two") ∧
      (10 : Byte) ∉ r.FormValue (lit "score-two")) :
    (∀ p : Page, p.Metadata.get (lit "scores") = (rs.map scoreRecord).flatten →
      Split (p.Metadata.get (lit "scores")) (lit "\n") = rs.map recordLine ++ [lit ""] ∧
      (∀ s ∈ Split (p.Metadata.get (lit "scores")) (lit "\n"), s ≠ lit "" →
        4 ≤ (Split s (lit ",")).length) ∧
      ∃ rows : List GoString, rs.map (fun r => scoreRow (recordLine r)) = rows.map some ∧
        formatScores p = some (tableOpen ++ rows.flatten ++ lit "</table>")) ∧
    (∀ (slugMake : GoString → GoString) (σ σ0 : Store) (r0 req : Request)
        (t0 target t : GoString),
      saveGameHandler slugMake σ r0 t0 = (σ0, .found target) →
      validUTF8 (slugMake (r0.FormValue (lit "title"))) = true →
      slugMake t = slugMake (slugMake (r0.FormValue (lit "title"))) →
      ∃ (scores : GoString) (rows : List GoString) (p : Page),
        storedScores slugMake (runAppends slugMake t σ0 rs).1 t = some scores ∧
        Split scores (lit "\n") = rs.map storedLine ++ [lit ""] ∧
        (∀ s ∈ Split scores (lit "\n"), s ≠ lit "" → 4 ≤ (Split s (lit ",")).length) ∧
        rs.map (fun r => scoreRow (storedLine r)) = rows.map some ∧
        viewGameHandler slugMake (runAppends slugMake t σ0 rs).1 req t =
          ((runAppends slugMake t σ0 rs).1, renderTemplate (lit "view-game") (some p)) ∧
        p.HTMLMetadata = some [(lit "scores", tableOpen ++ rows.flatten ++ lit "</table>")]) := by
  constructor
  · intro p hget
    have hls : ∀ l ∈ rs.map recordLine, (10 : Byte) ∉ l ∧ l ≠ [] ∧
        4 ≤ (Split l (lit ",")).length := by
      intro l hl
      obtain ⟨r, hr, rfl⟩ := List.mem_map.mp hl
      exact recordLine_spec (hnl r hr)
    have hget2 : p.Metadata.get (lit "scores") =
        ((rs.map recordLine).map fun l => l ++ [10]).flatten := by
      rw [hget, List.map_map]
      exact congrArg List.flatten
        (List.map_congr_left fun r _ => scoreRecord_eq_recordLine r)
    obtain ⟨h1, h2, h3⟩ := formatScores_lines p (rs.map recordLine) hget2 hls
    refine ⟨h1, ?_, _, ?_, h3⟩
    · intro s hs hne
      rw [h1, List.mem_append, List.mem_singleton] at hs
      rcases hs with hs | hs
      · exact (hls s hs).2.2
      · exact absurd hs hne
    · simpa [List.map_map] using h2
  · intro slugMake σ σ0 r0 req t0 target t hsave hslug ht
    exact score_table_of_appends slugMake σ σ0 r0 t0 target t rs req hsave hslug ht hnl

/-- C10 at the scenario of the specification: after (Alice, 10, Bob, 7) and
(Cy, 3, Dee, 9) have been appended to "Trivia Night", the stored text has the
two lines and the view handler renders a table of two rows, in this order. -/
theorem score_table_index_safe_witness :
    (∀ r ∈ triviaAppends, (10 : Byte) ∉ r.FormValue (lit "player-one") ∧
      (10 : Byte) ∉ r.FormValue (lit "score-one") ∧
      (10 : Byte) ∉ r.FormValue (lit "player-two") ∧
      (10 : Byte) ∉ r.FormValue (lit "score-two")) ∧
    (∃ rows : List GoString,
      triviaAppends.map (fun r => scoreRow (recordLine r)) = rows.map some ∧
      formatScores ⟨lit "trivia-night", lit "Trivia Night",
          some [(lit "scores", lit "Alice,10,Bob,7\nCy,3,Dee,9\n")], none⟩ =
        some (tableOpen ++ rows.flatten ++ lit "</table>")) ∧
    (viewGameHandler Slugifier
        (runAppends Slugifier (lit "trivia-night") triviaStore triviaAppends).1
        ⟨lit "/view-game/trivia-night", []⟩ (lit "trivia-night")).2 =
      renderTemplate (lit "view-game") (some ⟨lit "trivia-night", lit "Trivia Night",
        some [(lit "scores", lit "Alice,10,Bob,7\nCy,3,Dee,9\n"), (lit "description", lit "quiz")],
        some [(lit "scores", tableOpen ++
          lit "<tr><td>Alice</td><td>10</td><td>Bob</td><td>7</td></tr>" ++
          lit "<tr><td>Cy</td><td>3</td><td>Dee</td><td>9</td></tr>" ++ lit "</table>")]⟩) :=
  ⟨by decide,
    ((score_table_index_safe triviaAppends (by decide)).1
      ⟨lit "trivia-night", lit "Trivia Night",
        some [(lit "scores", lit "Alice,10,Bob,7\nCy,3,Dee,9\n")], none⟩ (by decide)).2.2,
    by decide⟩

/-! ## C9: what is written to the file -/

/-- C9 as stated fails: the object `saveGameData` writes for "Trivia Night" has
four members, `HTMLMetadata` among them, not the three `Title`,
`DisplayTitle`, `Metadata`. -/
theorem persisted_shape_has_four_fields :
    (ReadFile triviaStore (lit "data/game-trivia-night.json")).toOption.map docKeys =
        some [lit "Title", lit "DisplayTitle", lit "Metadata", lit "HTMLMetadata"] ∧
      [lit "Title", lit "DisplayTitle", lit "Metadata", lit "HTMLMetadata"] ≠
        [lit "Title", lit "DisplayTitle", lit "Metadata"] := by
  refine ⟨by decide, by decide⟩

/-- C9, amended: for every page and each kind, the file a successful
`saveGameData` or `saveUserData` leaves holds a JSON object with exactly the
four members `Title`, `DisplayTitle`, `Metadata` and `HTMLMetadata`, in this
order, each the encoding of the field of that name; the `HTMLMetadata` member
is `null` when the page's `HTMLMetadata` is nil, as it is for the pages the
save handlers build. -/
theorem persisted_shape (slugMake : GoString → GoString) (σ : Store) (p : Page) :
    (∀ σ2, saveGameData slugMake σ p = .ok σ2 →
      ReadFile σ2 (lit "data/game-" ++ slugMake p.Title ++ lit ".json") =
        .ok (.json (.object
          [(lit "Title", .string (toValidUTF8 p.Title)),
           (lit "DisplayTitle", .string (toValidUTF8 p.DisplayTitle)),
           (lit "Metadata", marshalMap p.Metadata),
           (lit "HTMLMetadata", marshalMap p.HTMLMetadata)]))) ∧
    (∀ σ2, saveUserData slugMake σ p = .ok σ2 →
      ReadFile σ2 (lit "data/user-" ++ slugMake p.Title ++ lit ".json") =
        .ok (.json (.object
          [(lit "Title", .string (toValidUTF8 p.Title)),
           (lit "DisplayTitle", .string (toValidUTF8 p.DisplayTitle)),
           (lit "Metadata", marshalMap p.Metadata),
           (lit "HTMLMetadata", marshalMap p.HTMLMetadata)]))) ∧
    (p.HTMLMetadata = none → marshalMap p.HTMLMetadata = .null) ∧
    (∀ (r : Request) (t : GoString) (σ2 : Store) (target : GoString),
      (saveGameHandler slugMake σ r t = (σ2, .found target) →
        ∃ title display meta,
          ReadFile σ2 (lit "data/game-" ++ slugMake (slugMake (r.FormValue (lit "title"))) ++
            lit ".json") = .ok (.json (.object [(lit "Title", title),
              (lit "DisplayTitle", display), (lit "Metadata", meta),
              (lit "HTMLMetadata", .null)]))) ∧
      (saveUserHandler slugMake σ r t = (σ2, .found target) →
        ∃ title display meta,
          ReadFile σ2 (lit "data/user-" ++ slugMake (slugMake (r.FormValue (lit "title"))) ++
            lit ".json") = .ok (.json (.object [(lit "Title", title),
              (lit "DisplayTitle", display), (lit "Metadata", meta),
              (lit "HTMLMetadata", .null)])))) := by
  refine ⟨fun σ2 h => ReadFile_WriteFile h, fun σ2 h => ReadFile_WriteFile h, ?_, ?_⟩
  · intro h; rw [h]; rfl
  · intro r t σ2 target
    constructor
    · intro h
      unfold saveGameHandler at h
      simp only at h
      split at h
      · simp at h
      · rename_i σ3 hok
        simp only [Prod.mk.injEq] at h
        obtain ⟨rfl, -⟩ := h
        exact ⟨_, _, _, ReadFile_WriteFile hok⟩
    · intro h
      unfold saveUserHandler at h
      simp only at h
      split at h
      · simp at h
      · rename_i σ3 hok
        simp only [Prod.mk.injEq] at h
        obtain ⟨rfl, -⟩ := h
        exact ⟨_, _, _, ReadFile_WriteFile hok⟩

/-- C9, amended, at "Trivia Night" saved onto the empty directory: the save
succeeds and the file holds the four members, `HTMLMetadata` being `null`. -/
theorem persisted_shape_witness :
    (∃ σ2, saveGameData Slugifier (some []) triviaNight = .ok σ2 ∧
      ReadFile σ2 (lit "data/game-" ++ Slugifier triviaNight.Title ++ lit ".json") =
        .ok (.json (.object
          [(lit "Title", .string (lit "trivia-night")),
           (lit "DisplayTitle", .string (lit "Trivia Night")),
           (lit "Metadata", .object [(lit "description", .string (lit "quiz"))]),
           (lit "HTMLMetadata", .null)]))) :=
  ⟨_, rfl, (persisted_shape Slugifier (some []) triviaNight).1 _ rfl⟩

/-! ## C3, C4: which files a listing takes, and under which name -/

/-- C3 fails on the code: the file `saveGameHandler` writes for a game titled
"User Guide" is `game-user-guide.json`; its name contains `user-`, so both
user listings take it for a user file, derive the name `game-guide`, find no
such user and dereference the nil page: the listings and the index page
abort. -/
theorem user_listing_takes_game_file :
    ReadDir userGuideStore = .ok [lit "game-user-guide.json"] ∧
      Contains (lit "game-user-guide.json") (lit "user-") = true ∧
      entryName (lit "user-") (lit "game-user-guide.json") = lit "game-guide" ∧
      getUserList Slugifier userGuideStore = .aborted ∧
      getUserOption Slugifier userGuideStore = .aborted ∧
      (reportHandler Slugifier userGuideStore ⟨lit "/", []⟩).2 = .aborted :=
  ⟨rfl, by decide, by decide, by decide, by decide, by decide⟩

/-- C4 fails on the code: the users "X" and "User X" are stored as
`user-x.json` and `user-user-x.json`; the listing removes every occurrence of
`user-`, so both entries get the identifier `x` (and the title of "X"), where
the slugs are `user-x` and `x`.  A game titled "Game Night" is stored as
`game-game-night.json`, listed under the name `night`, and the game listing
aborts on the nil page. -/
theorem listing_name_strips_every_occurrence :
    ReadDir userXStore = .ok [lit "user-user-x.json", lit "user-x.json"] ∧
      getUserList Slugifier userXStore =
        .done (userItem (lit "x") (lit "X") ++ userItem (lit "x") (lit "X")) ∧
      getUserOption Slugifier userXStore =
        .done (userOption (lit "x") (lit "X") ++ userOption (lit "x") (lit "X")) ∧
      ReadDir gameNightStore = .ok [lit "game-game-night.json"] ∧
      entryName (lit "game-") (lit "game-game-night.json") = lit "night" ∧
      getGameList Slugifier gameNightStore = .aborted :=
  ⟨rfl, by decide, by decide, rfl, by decide, by decide⟩

/-! ## C5: a listing and the load errors -/

section Listings

variable (slugMake : GoString → GoString)

theorem getUserListLoop_eq (σ : Store) :
    ∀ (files : List GoString) (acc : GoString),
      (∀ f ∈ files, Contains f (lit "user-") = true →
        (loadUserData slugMake σ (entryName (lit "user-") f)).1.isSome = true) →
      getUserListLoop slugMake σ files acc =
        .done (acc ++ ((files.filter fun f => Contains f (lit "user-")).map fun f =>
          userItem (entryName (lit "user-") f)
            (loadedTitle (loadUserData slugMake σ (entryName (lit "user-") f)).1)).flatten) := by
  intro files
  induction files with
  | nil => intro acc _; simp [getUserListLoop]
  | cons f files ih =>
    intro acc h
    have ih2 := fun acc => ih acc fun g hg => h g (List.mem_cons_of_mem _ hg)
    by_cases hc : Contains f (lit "user-") = true
    · have hs := h f (List.mem_cons_self _ _) hc
      obtain ⟨p, hp⟩ := Option.isSome_iff_exists.mp hs
      simp only [entryName] at hp
      simp only [getUserListLoop, hc, if_true, hp, ih2, List.filter_cons, List.map_cons,
        List.flatten_cons, entryName, loadedTitle, Option.map_some', Option.getD_some,
        List.append_assoc]
    · simp only [getUserListLoop, hc, ih2, List.filter_cons]
      rfl

theorem getUserOptionLoop_eq (σ : Store) :
    ∀ (files : List GoString) (acc : GoString),
      (∀ f ∈ files, Contains f (lit "user-") = true →
        (loadUserData slugMake σ (entryName (lit "user-") f)).1.isSome = true) →
      getUserOptionLoop slugMake σ files acc =
        .done (acc ++ ((files.filter fun f => Contains f (lit "user-")).map fun f =>
          userOption (entryName (lit "user-") f)
            (loadedTitle (loadUserData slugMake σ (entryName (lit "user-") f)).1)).flatten) := by
  intro files
  induction files with
  | nil => intro acc _; simp [getUserOptionLoop]
  | cons f files ih =>
    intro acc h
    have ih2 := fun acc => ih acc fun g hg => h g (List.mem_cons_of_mem _ hg)
    by_cases hc : Contains f (lit "user-") = true
    · have hs := h f (List.mem_cons_self _ _) hc
      obtain ⟨p, hp⟩ := Option.isSome_iff_exists.mp hs
      simp only [entryName] at hp
      simp only [getUserOptionLoop, hc, if_true, hp, ih2, List.filter_cons, List.map_cons,
        List.flatten_cons, entryName, loadedTitle, Option.map_some', Option.getD_some,
        List.append_assoc]
    · simp only [getUserOptionLoop, hc, ih2, List.filter_cons]
      rfl

theorem getGameListLoop_eq (σ : Store) :
    ∀ (files : List GoString) (acc : GoString),
      (∀ f ∈ files, Contains f (lit "game-") = true →
        (loadGameData slugMake σ (entryName (lit "game-") f)).1.isSome = true) →
      getGameListLoop slugMake σ files acc =
        .done (acc ++ ((files.filter fun f => Contains f (lit "game-")).map fun f =>
          gameItem (entryName (lit "game-") f)
            (loadedTitle (loadGameData slugMake σ (entryName (lit "game-") f)).1)).flatten) := by
  intro files
  induction files with
  | nil => intro acc _; simp [getGameListLoop]
  | cons f files ih =>
    intro acc h
    have ih2 := fun acc => ih acc fun g hg => h g (List.mem_cons_of_mem _ hg)
    by_cases hc : Contains f (lit "game-") = true
    · have hs := h f (List.mem_cons_self _ _) hc
      obtain ⟨p, hp⟩ := Option.isSome_iff_exists.mp hs
      simp only [entryName] at hp
      simp only [getGameListLoop, hc, if_true, hp, ih2, List.filter_cons, List.map_cons,
        List.flatten_cons, entryName, loadedTitle, Option.map_some', Option.getD_some,
        List.append_assoc]
    · simp only [getGameListLoop, hc, ih2, List.filter_cons]
      rfl

end Listings

/-- C5 as stated fails: `user-bob.json` holds text that is not JSON, its load
returns a decode error, and the user listing still has an entry for it (with
an empty title); the listing of the directory without that file has none. -/
theorem listing_keeps_undecodable_entry :
    loadUserData Slugifier (some brokenBobDir) (lit "bob") =
        (some Page.zero, some .jsonSyntax) ∧
      getUserList Slugifier (some brokenBobDir) =
        .done (userItem (lit "alice") (lit "Alice") ++ userItem (lit "bob") (lit "")) ∧
      getUserList Slugifier (some [(lit "user-alice.json", some (jsonMarshal alice))]) =
        .done (userItem (lit "alice") (lit "Alice")) ∧
      userItem (lit "alice") (lit "Alice") ++ userItem (lit "bob") (lit "") ≠
        userItem (lit "alice") (lit "Alice") :=
  ⟨by decide, by decide, by decide, by decide⟩

/-- C5, amended: a listing discards the error of each load.  For every
directory in which the load of every file a listing takes returns a page
(with or without a decode error), the listing completes normally and is the
concatenation, in directory order, of one entry for each of these files, the
files whose content did not decode included: the entry carries the name
derived from the file name and the `DisplayTitle` the load left in the page. -/
theorem listing_discards_load_errors (slugMake : GoString → GoString) (d : Dir) :
    ((∀ f ∈ d.map Prod.fst, Contains f (lit "user-") = true →
        (loadUserData slugMake (some d) (entryName (lit "user-") f)).1.isSome = true) →
      getUserList slugMake (some d) =
          .done (((d.map Prod.fst).filter fun f => Contains f (lit "user-")).map fun f =>
            userItem (entryName (lit "user-") f)
              (loadedTitle
                (loadUserData slugMake (some d) (entryName (lit "user-") f)).1)).flatten ∧
        getUserOption slugMake (some d) =
          .done (((d.map Prod.fst).filter fun f => Contains f (lit "user-")).map fun f =>
            userOption (entryName (lit "user-") f)
              (loadedTitle
                (loadUserData slugMake (some d) (entryName (lit "user-") f)).1)).flatten) ∧
    ((∀ f ∈ d.map Prod.fst, Contains f (lit "game-") = true →
        (loadGameData slugMake (some d) (entryName (lit "game-") f)).1.isSome = true) →
      getGameList slugMake (some d) =
        .done (((d.map Prod.fst).filter fun f => Contains f (lit "game-")).map fun f =>
          gameItem (entryName (lit "game-") f)
            (loadedTitle
              (loadGameData slugMake (some d) (entryName (lit "game-") f)).1)).flatten) := by
  have hl : lit "" = ([] : GoString) := rfl
  refine ⟨fun hu => ⟨?_, ?_⟩, fun hg => ?_⟩
  · simp only [getUserList, ReadDir, getUserListLoop_eq slugMake (some d) _ _ hu, hl,
      List.nil_append]
  · simp only [getUserOption, ReadDir, getUserOptionLoop_eq slugMake (some d) _ _ hu, hl,
      List.nil_append]
  · simp only [getGameList, ReadDir, getGameListLoop_eq slugMake (some d) _ _ hg, hl,
      List.nil_append]

/-- C5, amended, at the directory with the undecodable `user-bob.json`: the
hypotheses hold and the user listing has the entries of both files. -/
theorem listing_discards_load_errors_witness :
    (loadUserData Slugifier (some brokenBobDir) (lit "bob")).2 = some .jsonSyntax ∧
      getUserList Slugifier (some brokenBobDir) =
        .done (userItem (lit "alice") (lit "Alice") ++ userItem (lit "bob") (lit "")) :=
  ⟨by decide, ((listing_discards_load_errors Slugifier brokenBobDir).1 (by decide)).1⟩

/-- The scenario of the specification: with `game-x.json`, `user-alice.json`
and `user-bob.json` in the directory, the user listing holds the entries
`alice` and `bob`, in this order, and the game listing the entry `x`. -/
theorem listing_scenario :
    getUserList Slugifier (some scenarioDir) =
        .done (userItem (lit "alice") (lit "Alice") ++ userItem (lit "bob") (lit "Bob")) ∧
      getUserOption Slugifier (some scenarioDir) =
        .done (userOption (lit "alice") (lit "Alice") ++ userOption (lit "bob") (lit "Bob")) ∧
      getGameList Slugifier (some scenarioDir) = .done (gameItem (lit "x") (lit "X")) :=
  ⟨by decide, by decide, by decide⟩

/-- An entry that cannot be read makes the load return the nil page, and the
listing aborts on `p.DisplayTitle`; a directory that cannot be scanned ends
the process. -/
theorem listing_aborts_on_unreadable_entry :
    getUserList Slugifier (some [(lit "user-bob.json", none)]) = .aborted ∧
      getUserOption Slugifier (some [(lit "user-bob.json", none)]) = .aborted ∧
      getGameList Slugifier (some [(lit "game-x.json", none)]) = .aborted ∧
      getUserList Slugifier none = .fatal :=
  ⟨by decide, by decide, by decide, by decide⟩

/-! ## C6: `validPath` -/

theorem run_str (input s r : GoString) (c : Caps) (k : Cont) :
    Regex.run input (.str s) r c k = if s.isPrefixOf r then k (r.drop s.length) c else none := rfl

theorem run_cls_nil (input : GoString) (p : Byte → Bool) (c : Caps) (k : Cont) :
    Regex.run input (.cls p) [] c k = none := rfl

theorem run_cls_cons (input : GoString) (p : Byte → Bool) (b : Byte) (t : GoString) (c : Caps)
    (k : Cont) : Regex.run input (.cls p) (b :: t) c k = if p b then k t c else none := rfl

theorem run_seq (input : GoString) (a b : Regex) (r : GoString) (c : Caps) (k : Cont) :
    Regex.run input (.seq a b) r c k =
      Regex.run input a r c fun r2 c2 => Regex.run input b r2 c2 k := rfl

theorem run_alt (input : GoString) (a b : Regex) (r : GoString) (c : Caps) (k : Cont) :
    Regex.run input (.alt a b) r c k =
      (Regex.run input a r c k <|> Regex.run input b r c k) := rfl

theorem run_opt (input : GoString) (a : Regex) (r : GoString) (c : Caps) (k : Cont) :
    Regex.run input (.opt a) r c k = (Regex.run input a r c k <|> k r c) := rfl

theorem run_plus (input : GoString) (a : Regex) (r : GoString) (c : Caps) (k : Cont) :
    Regex.run input (.plus a) r c k = plusLoop (Regex.run input a) r.length r c k := rfl

theorem run_group (input : GoString) (i : Nat) (a : Regex) (r : GoString) (c : Caps) (k : Cont) :
    Regex.run input (.group i a) r c k =
      Regex.run input a r c fun r2 c2 => k r2 ((i, r.take (r.length - r2.length)) :: c2) := rfl

theorem run_bol (input r : GoString) (c : Caps) (k : Cont) :
    Regex.run input .bol r c k = if r.length = input.length then k r c else none := rfl

theorem run_eol (input r : GoString) (c : Caps) (k : Cont) :
    Regex.run input .eol r c k = if r = [] then k r c else none := rfl

theorem plusLoop_cls (input : GoString) (p : Byte → Bool) (k : Cont)
    (hk : ∀ r c, r ≠ [] → k r c = none) :
    ∀ (r : GoString) (n : Nat) (c : Caps), r.length ≤ n + 1 →
      plusLoop (Regex.run input (.cls p)) n r c k =
        if r ≠ [] ∧ r.all p = true then k [] c else none := by
  intro r
  induction r with
  | nil => intro n c _; cases n <;> simp [plusLoop, run_cls_nil]
  | cons b t ih =>
    intro n c hn
    by_cases hb : p b = true
    · cases n with
      | zero =>
        have ht : t = [] := by
          simp only [List.length_cons] at hn
          exact List.length_eq_zero.mp (by omega)
        subst ht
        simp [plusLoop, run_cls_cons, hb]
      | succ n =>
        have hlen : t.length ≤ n + 1 := by simpa using hn
        simp only [plusLoop, run_cls_cons, hb, if_true, List.length_cons, Nat.lt_succ_self,
          ih n c hlen]
        by_cases ht : t = []
        · subst ht; simp [hb]
        · simp [ht, hb, hk t c ht]
    · have hb2 : p b = false := by simpa using hb
      cases n <;> simp [plusLoop, run_cls_cons, hb2]

theorem slugByte_slash : slugByte 47 = false := by decide

theorem run_slug_eol (input : GoString) (k : Cont) (r : GoString) (c : Caps) :
    Regex.run input (.seq (.opt (.group 2 (.plus (.cls slugByte)))) .eol) r c k =
      if r = [] then k [] c else if r.all slugByte = true then k [] ((2, r) :: c) else none := by
  have hk : ∀ (r2 : GoString) (c2 : Caps), r2 ≠ [] →
      (fun (r3 : GoString) (c3 : Caps) =>
        Regex.run input .eol r3 ((2, r.take (r.length - r3.length)) :: c3) k) r2 c2 = none := by
    intro r2 c2 h; simp [run_eol, h]
  have hp := plusLoop_cls input slugByte _ hk r r.length c (Nat.le_succ _)
  rw [run_seq, run_opt, run_group, run_plus, hp]
  by_cases hr : r = []
  · subst hr; simp [run_eol]
  · by_cases ha : r.all slugByte = true
    · simp [hr, ha, run_eol]
    · simp [hr, ha, run_eol]

theorem run_tail (input : GoString) (k : Cont) (r : GoString) (c : Caps) :
    Regex.run input (.seq (.opt (.str (lit "/")))
        (.seq (.opt (.group 2 (.plus (.cls slugByte)))) .eol)) r c k =
      match pathTail r with
      | some slug => if slug = [] then k [] c else k [] ((2, slug) :: c)
      | none => none := by
  have hs : lit "/" = [47] := rfl
  rw [run_seq, run_opt, run_str, hs]
  simp only [run_slug_eol]
  rcases r with _ | ⟨b, t⟩
  · simp [pathTail]
  · by_cases hb : b = 47
    · subst hb
      have h1 : ([47] : GoString).isPrefixOf (47 :: t) = true := by simp [List.isPrefixOf]
      have h2 : ((47 : Byte) :: t).all slugByte = false := by simp [slugByte_slash]
      simp only [h1, if_true, List.length_singleton, List.drop_succ_cons, List.drop_zero,
        pathTail, h2]
      by_cases ht : t = []
      · subst ht; simp
      · by_cases ha : t.all slugByte = true
        · simp [ht, ha]
        · simp [ht, ha]
    · have h1 : ([47] : GoString).isPrefixOf (b :: t) = false := by
        simp [List.isPrefixOf]; exact fun e => hb e.symm
      simp only [h1, pathTail]
      by_cases ha : (b :: t).all slugByte = true
      · simp [ha]
      · simp [ha]
        rcases t with _ | _ <;> simp_all

theorem run_oneOf (input : GoString) (r : GoString) (c : Caps) (k : Cont) :
    ∀ (vs : List GoString), vs ≠ [] → vs.Nodup →
      (∀ v ∈ vs, ∀ w ∈ vs, v.isPrefixOf r = true → w.isPrefixOf r = true → v = w) →
      Regex.run input (Regex.oneOf vs) r c k =
        match vs.find? fun v => v.isPrefixOf r with
        | some v => k (r.drop v.length) c
        | none => none := by
  intro vs
  induction vs with
  | nil => intro h; exact absurd rfl h
  | cons v vs ih =>
    intro _ hnd hdis
    rcases vs with _ | ⟨w, vs⟩
    · simp only [Regex.oneOf, run_str, List.find?_cons, List.find?_nil]
      by_cases hv : v.isPrefixOf r = true
      · simp [hv]
      · simp [hv]
    · have hnd2 : (w :: vs).Nodup := (List.nodup_cons.mp hnd).2
      have hv_not : v ∉ w :: vs := (List.nodup_cons.mp hnd).1
      have ih2 := ih (by simp) hnd2 fun a ha b hb =>
        hdis a (List.mem_cons_of_mem _ ha) b (List.mem_cons_of_mem _ hb)
      simp only [Regex.oneOf, run_alt, run_str]
      rw [ih2]
      by_cases hv : v.isPrefixOf r = true
      · have hnone : (w :: vs).find? (fun u => u.isPrefixOf r) = none := by
          rw [List.find?_eq_none]
          intro u hu hp
          have := hdis v (List.mem_cons_self _ _) u (List.mem_cons_of_mem _ hu) hv hp
          exact hv_not (this ▸ hu)
        simp only [List.find?_cons, hv, if_true] at hnone ⊢
        rw [hnone]
        simp
      · have hv2 : v.isPrefixOf r = false := Bool.eq_false_iff.mpr hv
        simp only [List.find?_cons, hv2, if_false, Bool.false_eq_true, Option.none_orElse]

theorem verbs_prefix_free : ∀ v ∈ verbs, ∀ w ∈ verbs, v <+: w → v = w := by decide

theorem verbs_disjoint (r : GoString) :
    ∀ v ∈ verbs, ∀ w ∈ verbs, v.isPrefixOf r = true → w.isPrefixOf r = true → v = w := by
  intro v hv w hw h1 h2
  rw [List.isPrefixOf_iff_prefix] at h1 h2
  rcases List.prefix_or_prefix_of_prefix h1 h2 with h | h
  · exact verbs_prefix_free v hv w hw h
  · exact (verbs_prefix_free w hw v hv h).symm

theorem validPath_eq :
    validPath = .seq .bol (.seq (.str (lit "/")) (.seq (.group 1 (Regex.oneOf verbs))
      (.seq (.opt (.str (lit "/"))) (.seq (.opt (.group 2 (.plus (.cls slugByte)))) .eol)))) :=
  rfl

/-- The match of `validPath` at the start of the input. -/
theorem run_validPath (input : GoString) (k : Cont) :
    Regex.run input validPath input [] k =
      match matchPath input with
      | some (v, slug) => if slug = [] then k [] [(1, v)] else k [] [(2, slug), (1, v)]
      | none => none := by
  have hs : lit "/" = [47] := rfl
  rw [validPath_eq, run_seq, run_bol, if_pos rfl, run_seq, run_str, hs]
  rcases input with _ | ⟨b, r1⟩
  · simp [matchPath]
  by_cases hb : b = 47
  · subst hb
    have h1 : ([47] : GoString).isPrefixOf (47 :: r1) = true := by simp [List.isPrefixOf]
    have htail := run_tail (47 :: r1)
    rw [hs] at htail
    simp only [h1, if_true, List.length_singleton, List.drop_succ_cons, List.drop_zero, matchPath]
    rw [run_seq, run_group, run_oneOf _ _ _ _ verbs (by decide) (by decide) (verbs_disjoint r1)]
    cases hf : verbs.find? (fun v => v.isPrefixOf r1) with
    | none => simp
    | some v =>
      have hpre : v <+: r1 := List.isPrefixOf_iff_prefix.mp (by simpa using List.find?_some hf)
      have htake : r1.take (r1.length - (r1.drop v.length).length) = v := by
        have hle : v.length ≤ r1.length := hpre.length_le
        rw [List.length_drop, Nat.sub_sub_self hle]
        exact List.prefix_iff_eq_take.mp hpre ▸ rfl
      simp only [Option.bind_some, htail, htake]
      cases hp : pathTail (r1.drop v.length) with
      | none => simp [hp]
      | some slug => simp [hp]
  · have h1 : ([47] : GoString).isPrefixOf (b :: r1) = false := by
      simp [List.isPrefixOf]; exact fun e => hb e.symm
    have hm : matchPath (b :: r1) = none := by
      unfold matchPath
      split
      · rename_i heq
        simp only [List.cons.injEq] at heq
        exact absurd heq.1 hb
      · rfl
    simp [h1, hm]

theorem findAt_validPath_short (input : GoString) :
    ∀ (rest : GoString), rest.length < input.length → validPath.findAt input rest = none := by
  intro rest
  induction rest with
  | nil =>
    intro h
    have hne : ¬ ([] : GoString).length = input.length := by simp at h ⊢; omega
    rw [Regex.findAt, validPath_eq, run_seq, run_bol, if_neg hne]
  | cons b t ih =>
    intro h
    have hne : ¬ (b :: t).length = input.length := by omega
    have ht : t.length < input.length := by simp at h; omega
    rw [Regex.findAt, ih ht]
    conv_lhs => rw [validPath_eq, run_seq, run_bol, if_neg hne]
    rfl

/-- The submatches `validPath` finds in a path. -/
theorem FindStringSubmatch_validPath (path : GoString) :
    validPath.FindStringSubmatch path = (matchPath path).map fun vs => [path, vs.1, vs.2] := by
  have hn : validPath.numSubexp = 2 := rfl
  have hr : List.range 3 = [0, 1, 2] := rfl
  unfold Regex.FindStringSubmatch
  rw [hn, hr]
  rcases path with _ | ⟨b, t⟩
  · rw [Regex.findAt, run_validPath]
    rfl
  · rw [Regex.findAt, run_validPath, findAt_validPath_short (b :: t) t (by simp)]
    rcases hm : matchPath (b :: t) with _ | ⟨v, slug⟩
    · rfl
    · by_cases hs : slug = []
      · subst hs; simp [List.lookup]
      · simp [hs, List.lookup]

theorem pathTail_eq_some (r slug : GoString) :
    pathTail r = some slug ↔
      slug.all slugByte = true ∧ (r = slug ∨ r = 47 :: slug) := by
  by_cases ha : r.all slugByte = true
  · have hp : pathTail r = some r := by simp [pathTail, ha]
    rw [hp, Option.some.injEq]
    constructor
    · rintro rfl; exact ⟨ha, Or.inl rfl⟩
    · rintro ⟨_, h | h⟩
      · exact h
      · subst h; simp [slugByte_slash] at ha
  · rcases r with _ | ⟨b, r2⟩
    · simp at ha
    by_cases hb : b = 47
    · subst hb
      by_cases h2 : r2.all slugByte = true
      · have hp : pathTail (47 :: r2) = some r2 := by
          unfold pathTail; rw [if_neg ha]; simp [h2]
        rw [hp, Option.some.injEq]
        constructor
        · rintro rfl; exact ⟨h2, Or.inr rfl⟩
        · rintro ⟨hs, h | h⟩
          · subst h; exact absurd hs ha
          · simpa using h
      · have hp : pathTail (47 :: r2) = none := by
          unfold pathTail; rw [if_neg ha]; simp [h2]
        rw [hp]
        simp only [reduceCtorEq, false_iff, not_and, not_or]
        intro hs
        refine ⟨fun h => ha (h ▸ hs), fun h => ?_⟩
        simp only [List.cons.injEq, true_and] at h
        exact h2 (h ▸ hs)
    · have hp : pathTail (b :: r2) = none := by
        unfold pathTail; rw [if_neg ha]
        split
        · rename_i heq
          simp only [List.cons.injEq] at heq
          exact absurd heq.1 hb
        · rfl
      rw [hp]
      simp only [reduceCtorEq, false_iff, not_and, not_or]
      intro hs
      refine ⟨fun h => ha (h ▸ hs), fun h => ?_⟩
      simp only [List.cons.injEq] at h
      exact hb h.1

theorem matchPath_eq_some (path v slug : GoString) :
    matchPath path = some (v, slug) ↔
      v ∈ verbs ∧ slug.all slugByte = true ∧
        (path = lit "/" ++ v ++ slug ∨ path = lit "/" ++ v ++ lit "/" ++ slug) := by
  have hs : lit "/" = [47] := rfl
  rw [hs]
  rcases path with _ | ⟨b, r1⟩
  · simp [matchPath]
  by_cases hb : b = 47
  swap
  · have hm : matchPath (b :: r1) = none := by
      unfold matchPath
      split
      · rename_i heq
        simp only [List.cons.injEq] at heq
        exact absurd heq.1 hb
      · rfl
    rw [hm]
    simp only [reduceCtorEq, false_iff, not_and, not_or]
    intro _ _
    simp only [List.append_assoc, List.singleton_append]
    exact ⟨fun h => hb (List.cons.inj h).1, fun h => hb (List.cons.inj h).1⟩
  subst hb
  simp only [matchPath, List.append_assoc, List.singleton_append, List.cons.injEq, true_and,
    List.cons_append, List.nil_append]
  constructor
  · intro h
    rcases hf : verbs.find? (fun w => w.isPrefixOf r1) with _ | w
    · simp [hf] at h
    · rw [hf] at h
      rcases hp : pathTail (r1.drop w.length) with _ | s
      · simp [hp] at h
      simp only [hp, Option.some_bind, Option.map_some', Option.some.injEq, Prod.mk.injEq] at h
      obtain ⟨rfl, rfl⟩ := h
      have hw : w ∈ verbs := List.mem_of_find?_eq_some hf
      have hpre : w <+: r1 := List.isPrefixOf_iff_prefix.mp (by simpa using List.find?_some hf)
      obtain ⟨hall, htl⟩ := (pathTail_eq_some _ _).mp hp
      have hr1 : r1 = w ++ r1.drop w.length := by
        conv_lhs => rw [← List.take_append_drop w.length r1]
        rw [← List.prefix_iff_eq_take.mp hpre]
      refine ⟨hw, hall, ?_⟩
      rcases htl with h | h
      · left; rw [← h]; exact hr1
      · right; rw [← h]; exact hr1
  · rintro ⟨hv, hall, hpath⟩
    have key : ∀ x : GoString, r1 = v ++ x →
        verbs.find? (fun w => w.isPrefixOf r1) = some v ∧ r1.drop v.length = x := by
      intro x hx
      subst hx
      have hvp : v.isPrefixOf (v ++ x) = true :=
        List.isPrefixOf_iff_prefix.mpr (List.prefix_append _ _)
      refine ⟨?_, by simp⟩
      rcases hf : verbs.find? (fun w => w.isPrefixOf (v ++ x)) with _ | w
      · exact absurd hvp (by simpa using List.find?_eq_none.mp hf v hv)
      · have hw : w ∈ verbs := List.mem_of_find?_eq_some hf
        have hwp : w.isPrefixOf (v ++ x) = true := by simpa using List.find?_some hf
        rw [hf, verbs_disjoint (v ++ x) w hw v hv hwp hvp]
    rcases hpath with h | h
    · obtain ⟨h1, h2⟩ := key slug h
      rw [h1, Option.some_bind, h2, (pathTail_eq_some _ _).mpr ⟨hall, Or.inl rfl⟩]
      rfl
    · obtain ⟨h1, h2⟩ := key (47 :: slug) h
      rw [h1, Option.some_bind, h2, (pathTail_eq_some _ _).mpr ⟨hall, Or.inr rfl⟩]
      rfl

/-- C6 as stated fails: the path `/view-gamefoo` is none of `/verb`, `/verb/`
and `/verb/slug` (it neither is a verb nor has a verb and a slash as a
prefix), yet `validPath` matches it with the slug `foo` and the wrapped
handler is invoked: the view handler renders the stored game "Foo". -/
theorem path_match_without_slash :
    (∀ v ∈ verbs, lit "/view-gamefoo" ≠ lit "/" ++ v ∧
        ¬ (lit "/" ++ v ++ lit "/") <+: lit "/view-gamefoo") ∧
      validPath.FindStringSubmatch (lit "/view-gamefoo") =
        some [lit "/view-gamefoo", lit "view-game", lit "foo"] ∧
      makeHandler (viewGameHandler Slugifier) fooStore ⟨lit "/view-gamefoo", []⟩ =
        viewGameHandler Slugifier fooStore ⟨lit "/view-gamefoo", []⟩ (lit "foo") ∧
      (makeHandler (viewGameHandler Slugifier) fooStore ⟨lit "/view-gamefoo", []⟩).2 =
        renderTemplate (lit "view-game") (some ⟨lit "foo", lit "Foo",
          some [(lit "description", lit "bar")],
          some [(lit "scores", tableOpen ++ lit "</table>")]⟩) :=
  ⟨by decide, by decide, rfl, by decide⟩

/-- C6, amended: for every request path, the wrapped handler is invoked if and
only if the path is `/` and one of the ten verbs, optionally followed by `/`,
optionally followed by a slug, a non-empty string over `[a-zA-Z0-9-]`; the
string passed to the handler is exactly that slug, or the empty string when
there is none; every other path gets the not-found response and the handler
is not invoked. -/
theorem makeHandler_match (fn : TitleHandler) (σ : Store) (r : Request) :
    (∀ v ∈ verbs, ∀ slug : GoString, (∀ b ∈ slug, slugByte b = true) →
      (r.path = lit "/" ++ v ++ slug ∨ r.path = lit "/" ++ v ++ lit "/" ++ slug) →
      validPath.FindStringSubmatch r.path = some [r.path, v, slug] ∧
        makeHandler fn σ r = fn σ r slug) ∧
    ((¬ ∃ v ∈ verbs, ∃ slug : GoString, (∀ b ∈ slug, slugByte b = true) ∧
        (r.path = lit "/" ++ v ++ slug ∨ r.path = lit "/" ++ v ++ lit "/" ++ slug)) →
      validPath.FindStringSubmatch r.path = none ∧ makeHandler fn σ r = (σ, .notFound)) := by
  constructor
  · intro v hv slug hall hpath
    have hm : matchPath r.path = some (v, slug) :=
      (matchPath_eq_some _ _ _).mpr ⟨hv, List.all_eq_true.mpr hall, hpath⟩
    have hf : validPath.FindStringSubmatch r.path = some [r.path, v, slug] := by
      rw [FindStringSubmatch_validPath, hm]; rfl
    refine ⟨hf, ?_⟩
    simp [makeHandler, hf]
  · intro hno
    have hm : matchPath r.path = none := by
      rcases h : matchPath r.path with _ | ⟨v, slug⟩
      · rfl
      · obtain ⟨hv, hall, hpath⟩ := (matchPath_eq_some _ _ _).mp h
        exact absurd ⟨v, hv, slug, List.all_eq_true.mp hall, hpath⟩ hno
    have hf : validPath.FindStringSubmatch r.path = none := by
      rw [FindStringSubmatch_validPath, hm]; rfl
    refine ⟨hf, ?_⟩
    simp [makeHandler, hf]

/-- C6, amended, at concrete paths: `/view-game/foo`, `/view-game/` and
`/view-game` are matched with the slugs `foo`, `""` and `""`, and the view
handler is invoked with them; `/view-game/a_b` and `/play/foo` are answered
with not-found. -/
theorem makeHandler_match_witness :
    (validPath.FindStringSubmatch (lit "/view-game/foo") =
        some [lit "/view-game/foo", lit "view-game", lit "foo"] ∧
      makeHandler (viewGameHandler Slugifier) fooStore ⟨lit "/view-game/foo", []⟩ =
        viewGameHandler Slugifier fooStore ⟨lit "/view-game/foo", []⟩ (lit "foo")) ∧
    validPath.FindStringSubmatch (lit "/view-game/") =
      some [lit "/view-game/", lit "view-game", lit ""] ∧
    validPath.FindStringSubmatch (lit "/view-game") =
      some [lit "/view-game", lit "view-game", lit ""] ∧
    makeHandler (viewGameHandler Slugifier) fooStore ⟨lit "/view-game/a_b", []⟩ =
      (fooStore, .notFound) ∧
    makeHandler (viewGameHandler Slugifier) fooStore ⟨lit "/play/foo", []⟩ =
      (fooStore, .notFound) :=
  ⟨(makeHandler_match (viewGameHandler Slugifier) fooStore ⟨lit "/view-game/foo", []⟩).1
      (lit "view-game") (by decide) (lit "foo") (List.all_eq_true.mp (by decide)) (Or.inr rfl),
    by decide, by decide, rfl, rfl⟩

/-! ## C7: which requests are answered with not-found -/

theorem cleanPath_head (p : GoString) : ∃ t, cleanPath p = 47 :: t := by
  unfold cleanPath
  simp only
  split_ifs <;> first | exact ⟨_, List.cons_append _ _ _⟩ | exact ⟨_, rfl⟩

theorem longestMatch_some (path : GoString) :
    ∀ (rs : List (GoString × Route)) (pat : GoString) (h : Route),
      longestMatch path rs = some (pat, h) → (pat, h) ∈ rs ∧ pat.isPrefixOf path = true := by
  intro rs
  induction rs with
  | nil => intro pat h hm; simp [longestMatch] at hm
  | cons e rs ih =>
    obtain ⟨p1, h1⟩ := e
    intro pat h hm
    simp only [longestMatch] at hm
    rcases hr : longestMatch path rs with _ | ⟨p2, h2⟩
    · rw [hr] at hm
      simp only at hm
      split_ifs at hm with hc
      simp only [Option.some.injEq, Prod.mk.injEq] at hm
      obtain ⟨rfl, rfl⟩ := hm
      exact ⟨List.mem_cons_self _ _, hc.2⟩
    · rw [hr] at hm
      simp only at hm
      split_ifs at hm with hc
      · simp only [Option.some.injEq, Prod.mk.injEq] at hm
        obtain ⟨rfl, rfl⟩ := hm
        exact ⟨List.mem_cons_self _ _, hc.2.1⟩
      · simp only [Option.some.injEq, Prod.mk.injEq] at hm
        obtain ⟨rfl, rfl⟩ := hm
        obtain ⟨hmem, hpre⟩ := ih _ _ hr
        exact ⟨List.mem_cons_of_mem _ hmem, hpre⟩

theorem longestMatch_none (path : GoString) :
    ∀ (rs : List (GoString × Route)), longestMatch path rs = none →
      ∀ e ∈ rs, ¬ (e.1.getLast? = some 47 ∧ e.1.isPrefixOf path = true) := by
  intro rs
  induction rs with
  | nil => intro _ e he; simp at he
  | cons e rs ih =>
    obtain ⟨p1, h1⟩ := e
    intro hm
    simp only [longestMatch] at hm
    rcases hr : longestMatch path rs with _ | ⟨p2, h2⟩
    · rw [hr] at hm
      simp only at hm
      split_ifs at hm with hc
      intro e he
      rcases List.mem_cons.mp he with rfl | he
      · exact hc
      · exact ih hr e he
    · rw [hr] at hm
      simp only at hm
      split_ifs at hm

theorem routes_verbs : ∀ e ∈ routes, e.2 ≠ .report → ∃ v ∈ verbs, e.1 = lit "/" ++ v ++ lit "/" := by
  decide

section Mux

variable (slugMake : GoString → GoString)

theorem reportHandler_ne_notFound (σ : Store) (r : Request) :
    (reportHandler slugMake σ r).2 ≠ .notFound := by
  unfold reportHandler
  cases loadReport slugMake σ <;> simp [renderTemplate]

theorem serve_of_no_match (σ : Store) (r : Request) (h : Route) (hne : h ≠ .report)
    (hf : validPath.FindStringSubmatch r.path = none) :
    h.serve slugMake σ r = (σ, .notFound) := by
  cases h <;> first | exact absurd rfl hne | simp [Route.serve, makeHandler, hf]

end Mux

theorem mem_of_lookup_eq_some {β : Type} (k : GoString) (v : β) :
    ∀ (l : List (GoString × β)), l.lookup k = some v → (k, v) ∈ l := by
  intro l
  induction l with
  | nil => intro h; simp at h
  | cons e l ih =>
    obtain ⟨a, w⟩ := e
    intro h
    by_cases hk : k = a
    · subst hk
      simp only [List.lookup_cons, beq_self_eq_true, Option.some.injEq] at h
      subst h
      exact List.mem_cons_self _ _
    · have hb : (k == a) = false := by simpa using hk
      simp only [List.lookup_cons, hb] at h
      exact List.mem_cons_of_mem _ (ih h)

/-- A path the mux hands to a verb route has that route's pattern as a prefix. -/
theorem dispatch_handler {path : GoString} {h : Route} (hd : dispatch path = .handler h)
    (hne : h ≠ .report) : ∃ v ∈ verbs, (lit "/" ++ v ++ lit "/") <+: path := by
  unfold dispatch at hd
  simp only at hd
  split_ifs at hd with h1 h2
  rcases hl : routes.lookup path with _ | h3
  · rw [hl] at hd
    simp only at hd
    rcases hm : longestMatch path routes with _ | ⟨pat, h4⟩
    · rw [hm] at hd; simp at hd
    · rw [hm] at hd
      simp only [Dispatch.handler.injEq] at hd
      subst hd
      obtain ⟨hmem, hpre⟩ := longestMatch_some path routes pat h4 hm
      obtain ⟨v, hv, hpat⟩ := routes_verbs (pat, h4) hmem hne
      exact ⟨v, hv, hpat ▸ List.isPrefixOf_iff_prefix.mp hpre⟩
  · rw [hl] at hd
    simp only [Dispatch.handler.injEq] at hd
    subst hd
    obtain ⟨v, hv, hpat⟩ := routes_verbs (path, h3) (mem_of_lookup_eq_some _ _ _ hl) hne
    exact ⟨v, hv, hpat ▸ List.prefix_refl _⟩

/-- The pattern `/` catches every path the mux does not redirect. -/
theorem dispatch_ne_noHandler (path : GoString) : dispatch path ≠ .noHandler := by
  intro hd
  unfold dispatch at hd
  simp only at hd
  split_ifs at hd with h1 h2
  rcases hl : routes.lookup path with _ | h3
  · rw [hl] at hd
    simp only at hd
    rcases hm : longestMatch path routes with _ | ⟨pat, h4⟩
    · have hroot := longestMatch_none path routes hm (lit "/", .report) (by decide)
      obtain ⟨t, ht⟩ := cleanPath_head path
      have hp : path = 47 :: t := by
        have : cleanPath path = path := by simpa using h2
        rw [← this]; exact ht
      apply hroot
      refine ⟨by decide, ?_⟩
      have hs : (lit "/", Route.report).1 = [47] := rfl
      rw [hp, hs]
      simp [List.isPrefixOf]
    · rw [hm] at hd; simp at hd
  · rw [hl] at hd; simp at hd

/-- C7 as stated fails: the path `/foo` matches none of the route patterns (it
is not `/` and has no verb route as a prefix), and the answer is not
not-found: the mux hands it to the pattern `/`, and the index page is
rendered. -/
theorem unmatched_path_gets_index :
    lit "/foo" ≠ lit "/" ∧ (∀ v ∈ verbs, ¬ (lit "/" ++ v) <+: lit "/foo") ∧
      dispatch (lit "/foo") = .handler .report ∧
      main Slugifier (some []) ⟨lit "/foo", []⟩ =
        (some [], renderTemplate (lit "report")
          (some ⟨lit "report", lit "", none, some [(lit "users", lit ""), (lit "games", lit "")]⟩)) ∧
      (main Slugifier (some []) ⟨lit "/foo", []⟩).2 ≠ .notFound :=
  ⟨by decide, by decide, by decide, rfl, by decide⟩

/-- C7, amended: a request the mux hands to one of the ten verb routes whose
path `validPath` does not match is answered with not-found; a request whose
path is under none of the ten verb routes is never answered with not-found
(the pattern `/` catches it and the index handler serves it, or the mux
redirects it); and a request to a view route (view-game, view-user) whose
entity load fails is answered with not-found, no template being rendered. -/
theorem not_found_policy (slugMake : GoString → GoString) (σ : Store) (r : Request) :
    (∀ h, dispatch r.path = .handler h → h ≠ .report →
      validPath.FindStringSubmatch r.path = none → main slugMake σ r = (σ, .notFound)) ∧
    ((∀ v ∈ verbs, ¬ (lit "/" ++ v ++ lit "/") <+: r.path) →
      (main slugMake σ r).2 ≠ .notFound) ∧
    (∀ title, (loadGameData slugMake σ title).2 ≠ none →
      viewGameHandler slugMake σ r title = (σ, .notFound)) ∧
    (∀ title, (loadUserData slugMake σ title).2 ≠ none →
      viewUserHandler slugMake σ r title = (σ, .notFound)) := by
  refine ⟨?_, ?_, ?_, ?_⟩
  · intro h hd hne hf
    simp only [main, hd, serve_of_no_match slugMake σ r h hne hf]
  · intro hno
    unfold main
    rcases hd : dispatch r.path with target | h | _
    · simp
    · by_cases hr : h = .report
      · subst hr
        exact reportHandler_ne_notFound slugMake σ r
      · obtain ⟨v, hv, hpre⟩ := dispatch_handler hd hr
        exact absurd hpre (hno v hv)
    · exact absurd hd (dispatch_ne_noHandler _)
  · intro title he
    unfold viewGameHandler
    rcases hl : loadGameData slugMake σ title with ⟨p, _ | e⟩
    · rw [hl] at he; exact absurd rfl he
    · cases p <;> rfl
  · intro title he
    unfold viewUserHandler
    rcases hl : loadUserData slugMake σ title with ⟨p, _ | e⟩
    · rw [hl] at he; exact absurd rfl he
    · cases p <;> rfl

/-- C7, amended, at concrete requests on the empty directory: `/view-game/a_b`
goes to the view-game route, is not matched by `validPath` and is answered
with not-found; `/view-game/ghost` is matched, the load of `ghost` fails, and
the answer is not-found. -/
theorem not_found_policy_witness :
    (dispatch (lit "/view-game/a_b") = .handler .viewGame ∧
      validPath.FindStringSubmatch (lit "/view-game/a_b") = none ∧
      main Slugifier (some []) ⟨lit "/view-game/a_b", []⟩ = (some [], .notFound)) ∧
    ((loadGameData Slugifier (some []) (lit "ghost")).2 ≠ none ∧
      viewGameHandler Slugifier (some []) ⟨lit "/view-game/ghost", []⟩ (lit "ghost") =
        (some [], .notFound)) :=
  ⟨⟨by decide, by decide,
    (not_found_policy Slugifier (some []) ⟨lit "/view-game/a_b", []⟩).1 .viewGame (by decide)
      (by decide) (by decide)⟩,
   ⟨by decide,
    (not_found_policy Slugifier (some []) ⟨lit "/view-game/ghost", []⟩).2.2.1 (lit "ghost")
      (by decide)⟩⟩

/-! ## C8: the slug of a slug -/

theorem slugChar_idem (b : Byte) : slugChar (slugChar b) = slugChar b := by
  unfold slugChar
  by_cases h1 : 65 ≤ b.val ∧ b.val ≤ 90
  · have hv : (Fin.ofNat (b.val + 32) : Byte).val = b.val + 32 := by
      simp only [Fin.ofNat, Fin.val_mk]; omega
    have h2 : ¬ (65 ≤ (Fin.ofNat (b.val + 32) : Byte).val ∧
        (Fin.ofNat (b.val + 32) : Byte).val ≤ 90) := by rw [hv]; omega
    have h3 : (97 ≤ (Fin.ofNat (b.val + 32) : Byte).val ∧
        (Fin.ofNat (b.val + 32) : Byte).val ≤ 122) ∨
        (48 ≤ (Fin.ofNat (b.val + 32) : Byte).val ∧
        (Fin.ofNat (b.val + 32) : Byte).val ≤ 57) := by rw [hv]; omega
    simp only [h1, and_self, if_true, h2, if_false, h3]
  · by_cases h2 : (97 ≤ b.val ∧ b.val ≤ 122) ∨ (48 ≤ b.val ∧ b.val ≤ 57)
    · simp only [h1, if_false, h2, if_true]
    · simp only [h1, if_false, h2]
      decide

theorem mem_splitScan (c : Byte) :
    ∀ (s f : GoString), f ∈ splitScan [c] 0 s → c ∉ f ∧ ∀ b ∈ f, b ∈ s := by
  intro s
  induction s with
  | nil =>
    intro f hf
    simp only [splitScan, List.mem_singleton] at hf
    subst hf
    simp
  | cons x s ih =>
    intro f hf
    rw [splitScan_cons] at hf
    by_cases hx : x = c
    · rw [if_pos hx] at hf
      rcases List.mem_cons.mp hf with rfl | hf
      · simp
      · obtain ⟨h1, h2⟩ := ih f hf
        exact ⟨h1, fun b hb => List.mem_cons_of_mem _ (h2 b hb)⟩
    · rw [if_neg hx] at hf
      rcases hs : splitScan [c] 0 s with _ | ⟨g, gs⟩
      · exact absurd hs (splitScan_ne_nil _ _ _)
      · rw [hs] at hf ih
        rcases List.mem_cons.mp hf with rfl | hf
        · obtain ⟨h1, h2⟩ := ih g (List.mem_cons_self _ _)
          refine ⟨?_, ?_⟩
          · simp only [List.mem_cons, not_or]
            exact ⟨fun e => hx e.symm, h1⟩
          · intro b hb
            rcases List.mem_cons.mp hb with rfl | hb
            · exact List.mem_cons_self _ _
            · exact List.mem_cons_of_mem _ (h2 b hb)
        · obtain ⟨h1, h2⟩ := ih f (List.mem_cons_of_mem _ hf)
          exact ⟨h1, fun b hb => List.mem_cons_of_mem _ (h2 b hb)⟩

theorem splitScan_Join (c : Byte) :
    ∀ (ws : List GoString), ws ≠ [] → (∀ w ∈ ws, c ∉ w) →
      splitScan [c] 0 (Join ws [c]) = ws := by
  intro ws
  induction ws with
  | nil => intro h; exact absurd rfl h
  | cons w ws ih =>
    intro _ hc
    rcases ws with _ | ⟨w2, ws⟩
    · exact splitScan_of_not_mem c w (hc w (List.mem_cons_self _ _))
    · have h2 := ih (by simp) fun u hu => hc u (List.mem_cons_of_mem _ hu)
      simp only [Join, List.append_assoc, List.singleton_append]
      rw [splitScan_append c _ w (hc w (List.mem_cons_self _ _)), h2]

theorem mem_Join (sep : GoString) :
    ∀ (ws : List GoString) (b : Byte), b ∈ Join ws sep → b ∈ sep ∨ ∃ w ∈ ws, b ∈ w := by
  intro ws
  induction ws with
  | nil => intro b hb; simp [Join] at hb
  | cons w ws ih =>
    intro b hb
    rcases ws with _ | ⟨w2, ws⟩
    · exact Or.inr ⟨w, List.mem_cons_self _ _, by simpa [Join] using hb⟩
    · simp only [Join, List.mem_append] at hb
      rcases hb with (hb | hb) | hb
      · exact Or.inr ⟨w, List.mem_cons_self _ _, hb⟩
      · exact Or.inl hb
      · rcases ih b hb with h | ⟨u, hu, hbu⟩
        · exact Or.inl h
        · exact Or.inr ⟨u, List.mem_cons_of_mem _ hu, hbu⟩

/-- The Slugifier leaves a slug as it is. -/
theorem Slugifier_idem (x : GoString) : Slugifier (Slugifier x) = Slugifier x := by
  have hd : lit "-" = [45] := rfl
  unfold Slugifier
  rw [hd]
  simp only [Split_single]
  generalize hws : (splitScan [45] 0 (x.map slugChar)).filter (fun w => w ≠ []) = ws
  have hprop : ∀ w ∈ ws, w ≠ [] ∧ (45 : Byte) ∉ w ∧ ∀ b ∈ w, slugChar b = b := by
    intro w hw
    rw [← hws, List.mem_filter] at hw
    obtain ⟨h1, h2⟩ := mem_splitScan 45 _ w hw.1
    refine ⟨by simpa using hw.2, h1, ?_⟩
    intro b hb
    obtain ⟨a, -, rfl⟩ := List.mem_map.mp (h2 b hb)
    exact slugChar_idem a
  have hmap : (Join ws [45]).map slugChar = Join ws [45] := by
    conv_rhs => rw [← List.map_id (Join ws [45])]
    apply List.map_congr_left
    intro b hb
    rcases mem_Join _ _ _ hb with h | ⟨w, hw, hbw⟩
    · rw [List.mem_singleton] at h; subst h; decide
    · exact (hprop w hw).2.2 b hbw
  rw [hmap]
  by_cases he : ws = []
  · subst he; rfl
  · rw [splitScan_Join 45 ws he fun w hw => (hprop w hw).2.1]
    congr 1
    rw [List.filter_eq_self]
    intro w hw
    simpa using (hprop w hw).1

/-- C8: the Slugifier is idempotent, `Slugifier (Slugifier x) = Slugifier x` for
every string `x`; consequently the file the save handler writes for the
display title `x`, named from the slug of the already-slugified `Title`, is
`data/<kind>-<Slugifier x>.json`, the file that the load of `Slugifier x`
reads: the load returns what `json.Unmarshal` makes of the page written. -/
theorem slug_idempotent_same_file (σ : Store) (r : Request) (t : GoString) :
    (∀ x, Slugifier (Slugifier x) = Slugifier x) ∧
    (∀ σ2 target, saveGameHandler Slugifier σ r t = (σ2, .found target) →
      ReadFile σ2 (lit "data/game-" ++ Slugifier (r.FormValue (lit "title")) ++ lit ".json") =
          .ok (jsonMarshal ⟨Slugifier (r.FormValue (lit "title")), r.FormValue (lit "title"),
            some [(lit "description", r.FormValue (lit "description"))], none⟩) ∧
        loadGameData Slugifier σ2 (Slugifier (r.FormValue (lit "title"))) =
          jsonUnmarshal (jsonMarshal ⟨Slugifier (r.FormValue (lit "title")),
            r.FormValue (lit "title"),
            some [(lit "description", r.FormValue (lit "description"))], none⟩)) ∧
    (∀ σ2 target, saveUserHandler Slugifier σ r t = (σ2, .found target) →
      ReadFile σ2 (lit "data/user-" ++ Slugifier (r.FormValue (lit "title")) ++ lit ".json") =
          .ok (jsonMarshal ⟨Slugifier (r.FormValue (lit "title")), r.FormValue (lit "title"),
            some [(lit "description", r.FormValue (lit "description"))], none⟩) ∧
        loadUserData Slugifier σ2 (Slugifier (r.FormValue (lit "title"))) =
          jsonUnmarshal (jsonMarshal ⟨Slugifier (r.FormValue (lit "title")),
            r.FormValue (lit "title"),
            some [(lit "description", r.FormValue (lit "description"))], none⟩)) := by
  refine ⟨Slugifier_idem, ?_, ?_⟩
  · intro σ2 target h
    unfold saveGameHandler at h
    simp only at h
    split at h
    · simp at h
    · rename_i σ3 hok
      simp only [Prod.mk.injEq] at h
      obtain ⟨rfl, -⟩ := h
      have hread := ReadFile_WriteFile hok
      have hload := loadGameData_of_save Slugifier hok
      simp only [Slugifier_idem] at hread
      exact ⟨hread, hload⟩
  · intro σ2 target h
    unfold saveUserHandler at h
    simp only at h
    split at h
    · simp at h
    · rename_i σ3 hok
      simp only [Prod.mk.injEq] at h
      obtain ⟨rfl, -⟩ := h
      have hread := ReadFile_WriteFile hok
      have hload := loadUserData_of_save Slugifier hok
      simp only [Slugifier_idem] at hread
      exact ⟨hread, hload⟩

/-- C8 at the title "Trivia Night": its slug is `trivia-night`, the slug of
the slug is the slug again, and the game saved under the title is loaded by
the slug. -/
theorem slug_idempotent_same_file_witness :
    Slugifier (lit "Trivia Night") = lit "trivia-night" ∧
      Slugifier (Slugifier (lit "Trivia Night")) = Slugifier (lit "Trivia Night") ∧
      loadGameData Slugifier triviaStore (Slugifier (lit "Trivia Night")) =
        (some triviaNight, none) :=
  ⟨by decide, (slug_idempotent_same_file (some []) ⟨[], []⟩ []).1 (lit "Trivia Night"),
    by decide⟩

end Scorekeeper
